import Mathlib

/-!
Verification development for the ansible-plan workflow scheduler.

Part 1 embeds the graph compiler of `ansible-workflow/workflow.py`
(`AnsibleWorkflow.__import_file` / `AnsibleWorkflow._import_nodes`).
Part 2 embeds the execution engine of
`ansible_workflow_service/core/engine.py` together with the playbook node
model of `ansible_workflow/workflow.py` (`PNode`), and the skip-set setters
shared by both iterations.
-/

namespace AnsiblePlan

/-! ## Graph-compiler embedding (`ansible-workflow/workflow.py`) -/

/-- Execution strategy of a block (`strategy` key, default `parallel`). -/
inductive Strategy where
  | serial
  | parallel
deriving DecidableEq, Repr

/-- A declaration entry: either a playbook entry (`import_playbook`) or a
block entry (`block` with an optional `strategy`).  The optional `id` is the
user-supplied identifier; when absent the compiler draws a fresh one from an
id supply (modelling `random.choice` 5-char tokens). -/
inductive Decl where
  | playbook (id : Option String) (path : String)
  | block (id : Option String) (strategy : Option Strategy) (children : List Decl)
deriving Repr

/-- Compiler state: the accumulated edge list and node list of the
`networkx.DiGraph`, plus the counter of the fresh-id supply. -/
structure CompState where
  edges : List (String × String)
  nodes : List String
  fresh : Nat
deriving Repr

/-- Loop state of `_import_nodes`: the `parent_nodes` list, the
`zero_outdegree_nodes` list, and the graph state. -/
structure Acc where
  parents : List String
  zero : List String
  st : CompState
deriving Repr

/-- `gnode_id = inode.get('id', <random token>)`: the entry id, or a fresh
one from the supply. -/
def assignId (gen : Nat → String) (d : Decl) (st : CompState) : String × CompState :=
  match d with
  | .playbook (some i) _ => (i, st)
  | .block (some i) _ _ => (i, st)
  | .playbook none _ => (gen st.fresh, { st with fresh := st.fresh + 1 })
  | .block none _ _ => (gen st.fresh, { st with fresh := st.fresh + 1 })

/-- Start of a loop iteration of `_import_nodes` for an entry whose id is
`nid`: attach edges from `parent_nodes`; under `serial`, also attach edges
from `zero_outdegree_nodes` and reset both lists. -/
def entryStart (gen : Nat → String) (strat : Strategy) (d : Decl) (a : Acc) : Acc :=
  if strat = .serial then
    ⟨[], [],
      { (assignId gen d a.st).2 with
        edges := (assignId gen d a.st).2.edges ++
          a.parents.map (fun q => (q, (assignId gen d a.st).1)) ++
          a.zero.map (fun z => (z, (assignId gen d a.st).1)) }⟩
  else
    ⟨a.parents, a.zero,
      { (assignId gen d a.st).2 with
        edges := (assignId gen d a.st).2.edges ++
          a.parents.map (fun q => (q, (assignId gen d a.st).1)) }⟩

mutual

/-- One iteration of the `for inode in to_be_imported` loop of
`AnsibleWorkflow._import_nodes`: after `entryStart`, recurse into a block's
children with the block's strategy (default `parallel`), add the node,
update the frontier (`zero_outdegree_nodes`: append the playbook under
`parallel` or when it is the last `serial` entry; extend with a block's
sub-frontier) and, under `serial`, the new `parent_nodes` (the playbook or
empty-block node itself, or a non-empty block's sub-frontier).  `isLast`
models `inode == to_be_imported[-1]`. -/
def importEntry (gen : Nat → String) (strat : Strategy) (d : Decl) (isLast : Bool)
    (a : Acc) : Acc :=
  match d with
  | .playbook _ _ =>
    ⟨if strat = .serial then [(assignId gen d a.st).1]
      else (entryStart gen strat d a).parents,
     if strat = .parallel ∨ (strat = .serial ∧ isLast) then
        (entryStart gen strat d a).zero ++ [(assignId gen d a.st).1]
      else (entryStart gen strat d a).zero,
     { (entryStart gen strat d a).st with
        nodes := (entryStart gen strat d a).st.nodes ++ [(assignId gen d a.st).1] }⟩
  | .block _ bstrat children =>
    ⟨if strat = .serial then
        (if children.isEmpty then [(assignId gen d a.st).1]
          else (importListAux gen (bstrat.getD .parallel) children
            ⟨[(assignId gen d a.st).1], [], (entryStart gen strat d a).st⟩).zero)
      else (entryStart gen strat d a).parents,
     (entryStart gen strat d a).zero ++
       (importListAux gen (bstrat.getD .parallel) children
         ⟨[(assignId gen d a.st).1], [], (entryStart gen strat d a).st⟩).zero,
     { (importListAux gen (bstrat.getD .parallel) children
         ⟨[(assignId gen d a.st).1], [], (entryStart gen strat d a).st⟩).st with
        nodes := (importListAux gen (bstrat.getD .parallel) children
          ⟨[(assignId gen d a.st).1], [], (entryStart gen strat d a).st⟩).st.nodes
          ++ [(assignId gen d a.st).1] }⟩

/-- The loop of `_import_nodes` over the declaration list. -/
def importListAux (gen : Nat → String) (strat : Strategy) (ds : List Decl)
    (a : Acc) : Acc :=
  match ds with
  | [] => a
  | d :: rest => importListAux gen strat rest (importEntry gen strat d rest.isEmpty a)

end

/-- `AnsibleWorkflow._import_nodes(to_be_imported, parent_nodes, strategy)`:
returns the final graph state and the `zero_outdegree_nodes` frontier. -/
def importNodes (gen : Nat → String) (ds : List Decl) (parents : List String)
    (strat : Strategy) (st : CompState) : CompState × List String :=
  let a := importListAux gen strat ds ⟨parents, [], st⟩
  (a.st, a.zero)

/-- The synthetic sentinel entries inserted by `__import_file`:
`dict(id='s', block=[])` and `dict(id='e', block=[])`. -/
def sentinel (i : String) : Decl := .block (some i) none []

/-- `__import_file` followed by the top-level call
`self._import_nodes(self.__input_file_data, [], strategy='serial')`:
wrap the declaration list with the sentinels and compile serially from an
empty graph. -/
def compileWorkflow (gen : Nat → String) (ds : List Decl) : CompState × List String :=
  importNodes gen (sentinel "s" :: (ds ++ [sentinel "e"])) [] .serial ⟨[], [], 0⟩

/-! ## Execution-engine embedding (`ansible_workflow_service/core/engine.py`,
`PNode` from `ansible_workflow/workflow.py`) -/

/-- `NodeStatus` enumeration. -/
inductive NodeStatus where
  | notStarted
  | preRunning
  | running
  | ended
  | failed
  | skipped
deriving DecidableEq, Repr

/-- `WorkflowStatus` enumeration. -/
inductive WorkflowStatus where
  | notStarted
  | running
  | ended
  | failed
deriving DecidableEq, Repr

/-- State of a `PNode`'s job handle (`__thread` / `__runner`): not yet
launched (`__thread is None`), alive, or finished with a success flag
(`__runner.status == 'failed'`). -/
inductive JobState where
  | notLaunched
  | alive
  | done (failedJob : Bool)
deriving DecidableEq, Repr

/-- An emitted `WorkflowEvent`: either a `NODE_EVENT` (status, node id) or a
`WORKFLOW_EVENT` (status, content string). -/
inductive Event where
  | nodeEvent (s : NodeStatus) (node : String)
  | workflowEvent (s : WorkflowStatus) (content : String)
deriving DecidableEq, Repr

/-- Engine state: the execution graph (`__graph` as node and edge lists),
the per-node data (`PNode` vs `BNode` tag, `skipped` flag, job handle,
telemetry stamps), the runnable list `__running_nodes`, the stop flag, the
workflow status, the emitted events, the artifact-directory entries (idents
with an on-disk directory), the chosen ident per node, the stored skip list
`__skipped_nodes` and the resume event. -/
structure Engine where
  nodes : List String
  edges : List (String × String)
  pnode : String → Bool
  skipped : String → Bool
  job : String → JobState
  startedAt : String → Bool
  endedAt : String → Bool
  running : List String
  stopFlag : Bool
  wstatus : WorkflowStatus
  events : List Event
  artifacts : List String
  identOf : String → Option String
  skipList : List String
  resumeSignal : Bool

/-- `PNode.get_status` / `BNode.get_status`: a block is always `ENDED`; a
playbook is `SKIPPED` when its skip flag is set, otherwise its status
derives from the job handle. -/
def getStatus (e : Engine) (n : String) : NodeStatus :=
  if e.pnode n then
    if e.skipped n then .skipped
    else
      match e.job n with
      | .notLaunched => .notStarted
      | .alive => .running
      | .done fl => if fl then .failed else .ended
  else .ended

/-- In-neighbours of a node (`__graph.in_edges(node_id)` sources). -/
def inNbrs (e : Engine) (n : String) : List String :=
  (e.edges.filter (fun p => p.2 = n)).map (fun p => p.1)

/-- Out-neighbours of a node (`__graph.out_edges(node_id)` targets). -/
def outNbrs (e : Engine) (n : String) : List String :=
  (e.edges.filter (fun p => p.1 = n)).map (fun p => p.2)

/-- `AnsibleWorkflow.is_node_runnable`: every predecessor's status is in
`{ENDED, SKIPPED}`. -/
def isNodeRunnable (e : Engine) (n : String) : Bool :=
  (inNbrs e n).all (fun q => getStatus e q = .ended || getStatus e q = .skipped)

/-- The ident sequence `"%s_%s" % (id, i)` used by `PNode.run`. -/
def identName (id : String) (i : Nat) : String := id ++ "_" ++ Nat.repr i

/-- The `while os.path.exists(...)` scan of `PNode.run`, with explicit fuel
(the real loop terminates because the artifact directory is finite; fuel
`artifacts.length + 1` always suffices when the candidate names are
distinct). -/
def identFrom (artifacts : List String) (id : String) : Nat → Nat → String
  | i, 0 => identName id i
  | i, fuel + 1 =>
    if identName id i ∈ artifacts then identFrom artifacts id (i + 1) fuel
    else identName id i

/-- Ident selection of `PNode.run`: the node id when no artifact directory
for it exists yet, otherwise the first free name `<id>_1, <id>_2, ...`. -/
def chooseIdent (artifacts : List String) (id : String) : String :=
  if id ∈ artifacts then identFrom artifacts id 1 (artifacts.length + 1) else id

/-- `AnsibleWorkflow.run_node` together with `PNode.run`: stamp the start
time, pick the ident, launch the runner job (which creates the ident's
artifact directory), and emit `NODE_EVENT(RUNNING)`. -/
def runNode (e : Engine) (n : String) : Engine :=
  let ident := chooseIdent e.artifacts n
  { e with
    startedAt := fun m => if m = n then true else e.startedAt m
    job := fun m => if m = n then .alive else e.job m
    artifacts := e.artifacts ++ [ident]
    identOf := fun m => if m = n then some ident else e.identOf m
    events := e.events ++ [.nodeEvent .running n] }

/-- `AnsibleWorkflow.skip_node`: only emits `NODE_EVENT(SKIPPED)`. -/
def skipNodeEvent (e : Engine) (n : String) : Engine :=
  { e with events := e.events ++ [.nodeEvent .skipped n] }

/-- Successor handling inside `__run_step`: if the successor is runnable,
not already in the runnable list, not the end node and the engine is not
stopping, enqueue it; a playbook successor gets `PRE_RUNNING` and is then
launched, or emits `SKIPPED` if its skip flag is set. -/
def stepSucc (endNode : String) (e : Engine) (v : String) : Engine :=
  if isNodeRunnable e v ∧ v ∉ e.running then
    if v ≠ endNode ∧ ¬ e.stopFlag then
      let e1 := { e with running := e.running ++ [v] }
      if e1.pnode v then
        let e2 := { e1 with events := e1.events ++ [.nodeEvent .preRunning v] }
        if ¬ e2.skipped v then runNode e2 v else skipNodeEvent e2 v
      else e1
    else e
  else e

/-- First half of the `ENDED`/`SKIPPED` branch of `__run_step`: remove the
node from the runnable list and, unless it is skipped, stamp its end time
and emit `NODE_EVENT(ENDED)`. -/
def stepRemove (e : Engine) (nid : String) : Engine :=
  if ¬ e.skipped nid then
    { e with
      running := e.running.erase nid
      endedAt := fun m => if m = nid then true else e.endedAt m
      events := e.events ++ [.nodeEvent .ended nid] }
  else { e with running := e.running.erase nid }

/-- The `FAILED` branch of `__run_step`: stamp the end time, emit
`NODE_EVENT(FAILED)` and remove the node from the runnable list. -/
def stepFail (e : Engine) (nid : String) : Engine :=
  { e with
    endedAt := fun m => if m = nid then true else e.endedAt m
    events := e.events ++ [.nodeEvent .failed nid]
    running := e.running.erase nid }

/-- Processing of one runnable node inside `__run_step`: an
`ENDED`/`SKIPPED` node is removed, stamped and reported (unless skipped),
and its out-edges are scanned for successors; a `FAILED` node is stamped,
reported and removed; anything else is left untouched. -/
def stepNode (endNode : String) (e : Engine) (nid : String) : Engine :=
  if getStatus e nid = .ended ∨ getStatus e nid = .skipped then
    (outNbrs (stepRemove e nid) nid).foldl (stepSucc endNode) (stepRemove e nid)
  else if getStatus e nid = .failed then stepFail e nid
  else e

/-- `AnsibleWorkflow.__run_step`: iterate over a snapshot
(`list(self.__running_nodes)`) of the runnable list. -/
def runStep (e : Engine) (endNode : String) : Engine :=
  e.running.foldl (stepNode endNode) e

/-- `AnsibleWorkflow.get_some_failed_task`: some node's status is outside
`{ENDED, SKIPPED}`. -/
def someFailedTask (e : Engine) : Bool :=
  e.nodes.any (fun n => ¬ (getStatus e n = .ended ∨ getStatus e n = .skipped))

/-- One iteration of the `while not self.__stopped` loop of
`AnsibleWorkflow.run`: perform a step; when the runnable list has drained,
either settle to `FAILED` and wait on the (cleared) resume event with a
1-second timeout — the loop continues — or settle to `ENDED` and break.
The returned flag is `true` when the loop continues. -/
def loopIter (e : Engine) (endNode : String) : Engine × Bool :=
  if (runStep e endNode).running.isEmpty then
    if someFailedTask (runStep e endNode) then
      ({ runStep e endNode with
          wstatus := .failed
          events := (runStep e endNode).events ++
            [.workflowEvent .failed "Workflow failed, waiting for retry."]
          resumeSignal := false }, true)
    else
      ({ runStep e endNode with
          wstatus := .ended
          events := (runStep e endNode).events ++ [.workflowEvent .ended endNode] },
        false)
  else (runStep e endNode, true)

/-- The `while not self.__stopped` loop with explicit fuel; `none` when the
fuel runs out before the loop exits. -/
def runLoop (endNode : String) : Nat → Engine → Option Engine
  | 0, _ => none
  | fuel + 1, e =>
    if e.stopFlag then some e
    else
      let r := loopIter e endNode
      if r.2 then runLoop endNode fuel r.1 else some r.1

/-- The code after the loop in `AnsibleWorkflow.run`: if stopped and not
cleanly ended, settle to `FAILED` and emit the "Workflow stopped" event. -/
def runExit (e : Engine) : Engine :=
  if e.stopFlag ∧ e.wstatus ≠ .ended then
    { e with
      wstatus := .failed
      events := e.events ++ [.workflowEvent .failed "Workflow stopped"] }
  else e

/-- `AnsibleWorkflow.stop`: set the stop flag. -/
def stopEngine (e : Engine) : Engine := { e with stopFlag := true }

/-- Environment transition: a launched job finishes with the given failure
flag (the runner thread dies and `__runner.status` is set). -/
def jobFinish (e : Engine) (n : String) (failedJob : Bool) : Engine :=
  if e.job n = .alive then
    { e with job := fun m => if m = n then .done failedJob else e.job m }
  else e

/-- Set a node's skip flag (`Node.set_skipped`). -/
def markSkipped (e : Engine) (n : String) : Engine :=
  { e with skipped := fun m => if m = n then true else e.skipped m }

/-- The `skipped_from_start` stack loop of `_set_skipped_nodes`: pop the
last element, mark it skipped, append its predecessors.  Explicit fuel:
the Python loop terminates on acyclic graphs only. -/
def skipFromStart : Nat → Engine → List String → Option Engine
  | fuel, e, stack =>
    match stack.getLast? with
    | none => some e
    | some n =>
      match fuel with
      | 0 => none
      | fuel + 1 =>
        let e1 := markSkipped e n
        skipFromStart fuel e1 (stack.dropLast ++ inNbrs e1 n)

/-- The `skipped_after_end` stack loop of `_set_skipped_nodes`: pop the
last element, mark it skipped, append its successors. -/
def skipFromEnd : Nat → Engine → List String → Option Engine
  | fuel, e, stack =>
    match stack.getLast? with
    | none => some e
    | some n =>
      match fuel with
      | 0 => none
      | fuel + 1 =>
        let e1 := markSkipped e n
        skipFromEnd fuel e1 (stack.dropLast ++ outNbrs e1 n)

/-- `AnsibleWorkflow._set_skipped_nodes(start_node, end_node)`: mark every
node of the stored skip list, then every transitive predecessor of the
start node, then every transitive successor of the end node. -/
def setSkipMarks (e : Engine) (startNode endNode : String) (fuel : Nat) :
    Option Engine :=
  match skipFromStart fuel (e.skipList.foldl markSkipped e)
      (inNbrs (e.skipList.foldl markSkipped e) startNode) with
  | none => none
  | some e2 => skipFromEnd fuel e2 (outNbrs e2 endNode)

/-- `AnsibleWorkflow.run` between validation and the polling loop: apply
the skip marks, set the status to `RUNNING`, enqueue the start node and —
when the start node is a playbook — launch it (no skip check here). -/
def runPrelude (e : Engine) (startNode endNode : String) (fuel : Nat) :
    Option Engine :=
  match setSkipMarks e startNode endNode fuel with
  | none => none
  | some e1 =>
    let e2 := { e1 with
      wstatus := .running
      running := e1.running ++ [startNode]
      events := e1.events ++ [Event.workflowEvent .running startNode] }
    some (if e2.pnode startNode then
        runNode { e2 with events := e2.events ++ [Event.nodeEvent .running startNode] }
          startNode
      else e2)

/-- `AnsibleWorkflow.set_filtered_nodes`: with a non-empty filter list,
replace the stored skip list by the complement of the filter within the
graph's nodes; otherwise do nothing. -/
def setFilteredNodes (e : Engine) (filterNodes : List String) : Engine :=
  if 0 < filterNodes.length then
    { e with skipList := e.nodes.filter (fun n => n ∉ filterNodes) }
  else e

/-- `AnsibleWorkflow.set_skipped_nodes`: with a non-empty list, replace the
stored skip list; otherwise do nothing. -/
def setSkippedNodes (e : Engine) (skippedNodes : List String) : Engine :=
  if 0 < skippedNodes.length then { e with skipList := skippedNodes } else e

/-- `WorkflowAPI.start_workflow` lines applying the request's node
selections: `if request.filter_nodes: ...; if request.skip_nodes: ...`
(Python truthiness of a list is non-emptiness). -/
def applyRequestSelections (e : Engine) (filterNodes skipNodes : List String) :
    Engine :=
  let e1 := if ¬ filterNodes.isEmpty then setFilteredNodes e filterNodes else e
  if ¬ skipNodes.isEmpty then setSkippedNodes e1 skipNodes else e1

/-- Modelled from the spec: `PNode.reset_status` (called by
`restart_failed_node`; defined in the service's `models.py`, which is not
under `src/`).  The spec's restart scenario re-launches the node from
scratch, so the reset clears the job handle. -/
def resetStatus (e : Engine) (n : String) : Engine :=
  { e with job := fun m => if m = n then .notLaunched else e.job m }

/-- `AnsibleWorkflow.restart_failed_node`: a no-op unless the node's status
is `FAILED`; otherwise set the workflow status back to `RUNNING`, emit the
resume workflow event, reset the node, launch it, re-add it to the
runnable list and set the resume event. -/
def restartFailedNode (e : Engine) (n : String) : Engine :=
  if getStatus e n ≠ .failed then e
  else
    let e1 := { e with
      wstatus := .running
      events := e.events ++
        [.workflowEvent .running ("Workflow resuming from node " ++ n)] }
    let e2 := resetStatus e1 n
    let e3 := runNode e2 n
    { e3 with running := e3.running ++ [n], resumeSignal := true }

/-! ## `add_node` embedding (`AnsibleWorkflow.add_node`, identical in
`ansible_workflow/workflow.py` and `ansible_workflow_service/core/engine.py`) -/

/-- Which message `add_node` attaches to `AnsibleWorkflowDuplicateNodeId`. -/
inductive AddNodeError where
  | reserved
  | comma
  | duplicate
deriving DecidableEq, Repr

/-- Node bookkeeping of the workflow: `__graph.nodes` (also auto-populated
by `add_link` via `networkx.add_edge`) and the keys of `__data`. -/
structure WStore where
  graphNodes : List String
  dataKeys : List String
  edges : List (String × String)
deriving Repr

/-- `AnsibleWorkflow.is_node_present`. -/
def isNodePresent (w : WStore) (id : String) : Bool := id ∈ w.graphNodes

/-- `AnsibleWorkflow.add_link`: `networkx.DiGraph.add_edge`, which also
auto-adds both endpoints as graph nodes (without data). -/
def addLink (w : WStore) (a b : String) : WStore :=
  { w with graphNodes := w.graphNodes ++ [a, b], edges := w.edges ++ [(a, b)] }

/-- `AnsibleWorkflow.add_node`: raises `AnsibleWorkflowDuplicateNodeId`
exactly when (the id is present in the graph and has data) or the id
contains a comma; the message distinguishes reserved ids, comma ids and
plain duplicates.  Otherwise the node and its data are stored. -/
def addNode (w : WStore) (id : String) : Except AddNodeError WStore :=
  if (isNodePresent w id && decide (id ∈ w.dataKeys)) || decide (',' ∈ id.data) then
    .error (if id = "_s" || id = "_e" || id = "_root" then .reserved
      else if ',' ∈ id.data then .comma
      else .duplicate)
  else
    .ok { w with graphNodes := w.graphNodes ++ [id], dataKeys := w.dataKeys ++ [id] }

/-! ## Stdout-tail embedding -/

/-- Modelled from the spec: `AnsibleWorkflow.tail_playbook_output(id,
offset)` — the implementation behind `WorkflowController.tail_playbook_output`
is in a workflow iteration not under `src/` (only the pass-through in
`server.py` and the consumer `WorkflowUi.stream_log` are).  Per the §6
contract: return the bytes from `offset` to the current EOF together with
the new EOF position, and empty content with offset 0 when the stdout file
does not yet exist.  `fs` maps a node id to its stdout file content (a byte
list) when that file exists. -/
def tailStdout (fs : String → Option (List Nat)) (id : String) (offset : Nat) :
    List Nat × Nat :=
  match fs id with
  | none => ([], 0)
  | some content => (content.drop offset, content.length)

/-! ## Sample states used by witnesses -/

/-- An engine state with empty graph and default flags. -/
def baseEngine : Engine where
  nodes := []
  edges := []
  pnode := fun _ => false
  skipped := fun _ => false
  job := fun _ => .notLaunched
  startedAt := fun _ => false
  endedAt := fun _ => false
  running := []
  stopFlag := false
  wstatus := .notStarted
  events := []
  artifacts := []
  identOf := fun _ => none
  skipList := []
  resumeSignal := false

/-! ## C10 — skip/filter selection semantics -/

/-- C10: `set_skipped_nodes` with a non-empty list replaces the stored skip
set entirely — including one previously derived by `set_filtered_nodes`
(last write wins, no union); calling either setter with an empty list
leaves the stored set unchanged, so an empty call never clears a previous
selection; and the API boundary applies both setters in sequence when both
request fields are non-empty. -/
theorem c10_selection_setters (e : Engine) (f sk : List String) :
    (sk ≠ [] → (setSkippedNodes (setFilteredNodes e f) sk).skipList = sk)
    ∧ setFilteredNodes e [] = e
    ∧ setSkippedNodes e [] = e
    ∧ (f ≠ [] → sk ≠ [] →
        applyRequestSelections e f sk = setSkippedNodes (setFilteredNodes e f) sk) := by
  refine ⟨?_, ?_, ?_, ?_⟩
  · intro hsk
    simp [setSkippedNodes, List.length_pos, hsk]
  · simp [setFilteredNodes]
  · simp [setSkippedNodes]
  · intro hf hsk
    simp [applyRequestSelections, List.isEmpty_iff, hf, hsk]

/-- Witness for C10 at a concrete state: after selecting filter `[P1]` and
then skip `[P2]`, the stored skip list is `[P2]`. -/
theorem c10_selection_setters_witness :
    (["P2"] : List String) ≠ [] ∧
      (setSkippedNodes (setFilteredNodes
        { baseEngine with nodes := ["P1", "P2", "P3"] } ["P1"]) ["P2"]).skipList
        = ["P2"] :=
  ⟨by decide, (c10_selection_setters
    { baseEngine with nodes := ["P1", "P2", "P3"] } ["P1"] ["P2"]).1 (by decide)⟩

/-! ## C6 — `add_node` validation -/

/-- C6 counterexample: contrary to the claim, `add_node` does *not* raise
for a fresh node whose id is the reserved `_root` (or `_s`, `_e`): the
reserved-id branch only selects the error message once the
duplicate-or-comma condition already holds.  On an empty workflow, adding a
node with id `_root` succeeds. -/
theorem c6_addNode_counterexample :
    addNode ⟨[], [], []⟩ "_root"
      = .ok ⟨["_root"], ["_root"], []⟩ := by
  rfl

/-- C6 (amended): `add_node` raises `AnsibleWorkflowDuplicateNodeId`
exactly when the id is already present in the graph with stored data, or
the id contains a comma; a reserved id (`_s`, `_e`, `_root`) is reported
with the reserved-id message only when that condition already holds, and
every other node — including a fresh reserved id — is added without
raising. -/
theorem c6_addNode_raises_iff (w : WStore) (id : String) :
    (∃ err, addNode w id = .error err)
      ↔ ((isNodePresent w id = true ∧ id ∈ w.dataKeys) ∨ ',' ∈ id.data) := by
  unfold addNode
  by_cases h : (isNodePresent w id && decide (id ∈ w.dataKeys)) || decide (',' ∈ id.data)
  · simp only [h, if_true]
    constructor
    · intro _
      rcases Bool.or_eq_true_iff.mp h with h1 | h1
      · rcases Bool.and_eq_true_iff.mp h1 with ⟨ha, hb⟩
        exact Or.inl ⟨ha, of_decide_eq_true hb⟩
      · exact Or.inr (of_decide_eq_true h1)
    · intro _
      exact ⟨_, rfl⟩
  · simp only [h, if_false]
    constructor
    · rintro ⟨err, herr⟩
      cases herr
    · intro hcond
      exfalso
      apply h
      rcases hcond with ⟨ha, hb⟩ | hc
      · exact Bool.or_eq_true_iff.mpr (Or.inl
          (Bool.and_eq_true_iff.mpr ⟨ha, decide_eq_true hb⟩))
      · exact Bool.or_eq_true_iff.mpr (Or.inr (decide_eq_true hc))

/-! ## C9 — stdout-tail contract -/

/-- C9: for every node id and byte offset, the stdout-tail operation
returns the bytes of the node's stdout file from the offset to the current
end of file together with the new end-of-file position, and empty content
with offset 0 when the stdout file does not yet exist. -/
theorem c9_tailStdout_contract (fs : String → Option (List Nat)) (id : String)
    (offset : Nat) :
    (∀ c, fs id = some c → tailStdout fs id offset = (c.drop offset, c.length))
    ∧ (fs id = none → tailStdout fs id offset = ([], 0)) := by
  constructor
  · intro c hc
    simp [tailStdout, hc]
  · intro hc
    simp [tailStdout, hc]

/-- Witness for C9: a three-byte file tailed from offset 1, and a missing
file. -/
theorem c9_tailStdout_contract_witness :
    tailStdout (fun i => if i = "P1" then some [7, 8, 9] else none) "P1" 1
        = ([8, 9], 3)
    ∧ tailStdout (fun i => if i = "P1" then some [7, 8, 9] else none) "P2" 0
        = ([], 0) :=
  ⟨(c9_tailStdout_contract (fun i => if i = "P1" then some [7, 8, 9] else none)
      "P1" 1).1 [7, 8, 9] (by decide),
   (c9_tailStdout_contract (fun i => if i = "P1" then some [7, 8, 9] else none)
      "P2" 0).2 (by decide)⟩

/-! ## C8 — restart of a failed node and ident selection -/

/-- The `while` scan of `identFrom` lands on the first free index: if every
index from `i` up to (excluding) `k` is taken, `k` itself is free, and the
fuel covers the distance, the scan returns `identName id k`. -/
theorem identFrom_eq_firstFree (artifacts : List String) (id : String)
    (i k fuel : Nat) (hik : i ≤ k) (hk : k ≤ i + fuel)
    (htaken : ∀ j, i ≤ j → j < k → identName id j ∈ artifacts)
    (hfree : identName id k ∉ artifacts) :
    identFrom artifacts id i fuel = identName id k := by
  induction fuel generalizing i with
  | zero =>
    have : i = k := Nat.le_antisymm hik (by omega)
    simp [identFrom, this]
  | succ fuel ih =>
    rw [identFrom]
    by_cases hmem : identName id i ∈ artifacts
    · have hik2 : i < k := by
        rcases Nat.lt_or_ge i k with h | h
        · exact h
        · exact absurd (Nat.le_antisymm hik h ▸ hfree) (fun hh => hh hmem)
      simp only [hmem, if_true]
      exact ih (i + 1) hik2 (by omega) (fun j hj1 hj2 => htaken j (by omega) hj2)
    · have hik3 : i = k := by
        rcases Nat.lt_or_ge i k with h | h
        · exact absurd (htaken i (Nat.le_refl i) h) hmem
        · exact Nat.le_antisymm hik h
      subst hik3
      simp [hmem]

/-- C8: `restart_node` re-launches only a node whose status is `FAILED`
(otherwise it is a no-op); on a failed node it resets the node, sets the
workflow status back to `RUNNING`, signals the resume event and re-launches
the job.  The on-disk ident of a launch is the node id when no artifact
directory for it exists yet; on a retry (the node id's directory exists)
it is the first name among `<id>_1, <id>_2, ...` without a directory —
existing artifact entries are all preserved. -/
theorem c8_restartFailedNode (e : Engine) (n : String) (k : Nat) :
    (getStatus e n ≠ .failed → restartFailedNode e n = e)
    ∧ (getStatus e n = .failed →
        (restartFailedNode e n).wstatus = .running
        ∧ (restartFailedNode e n).resumeSignal = true
        ∧ (restartFailedNode e n).job n = .alive
        ∧ n ∈ (restartFailedNode e n).running
        ∧ (restartFailedNode e n).identOf n = some (chooseIdent e.artifacts n)
        ∧ (restartFailedNode e n).artifacts
            = e.artifacts ++ [chooseIdent e.artifacts n])
    ∧ (n ∉ e.artifacts → chooseIdent e.artifacts n = n)
    ∧ (n ∈ e.artifacts → 1 ≤ k → k ≤ e.artifacts.length + 1 →
        (∀ j, 1 ≤ j → j < k → identName n j ∈ e.artifacts) →
        identName n k ∉ e.artifacts →
        chooseIdent e.artifacts n = identName n k) := by
  refine ⟨?_, ?_, ?_, ?_⟩
  · intro h
    simp [restartFailedNode, h]
  · intro h
    refine ⟨?_, ?_, ?_, ?_, ?_, ?_⟩ <;>
      simp [restartFailedNode, h, runNode, resetStatus]
  · intro h
    simp [chooseIdent, h]
  · intro hmem hk1 hk2 htaken hfree
    rw [chooseIdent, if_pos hmem]
    exact identFrom_eq_firstFree e.artifacts n 1 k (e.artifacts.length + 1) hk1
      (by omega) htaken hfree

/-- Witness for C8 at a concrete state: node `P3` failed, prior launches
occupy `P3` and `P3_1`, so the retry ident is `P3_2`. -/
theorem c8_restartFailedNode_witness :
    (getStatus { baseEngine with
        nodes := ["P3"]
        pnode := fun m => m = "P3"
        job := fun m => if m = "P3" then .done true else .notLaunched
        artifacts := ["P3", "P3_1"] } "P3" = .failed
      ∧ (restartFailedNode { baseEngine with
            nodes := ["P3"]
            pnode := fun m => m = "P3"
            job := fun m => if m = "P3" then .done true else .notLaunched
            artifacts := ["P3", "P3_1"] } "P3").wstatus = .running)
    ∧ chooseIdent ["P3", "P3_1"] "P3" = identName "P3" 2 := by
  refine ⟨⟨by decide, ?_⟩, ?_⟩
  · exact ((c8_restartFailedNode { baseEngine with
        nodes := ["P3"]
        pnode := fun m => m = "P3"
        job := fun m => if m = "P3" then .done true else .notLaunched
        artifacts := ["P3", "P3_1"] } "P3" 2).2.1 (by decide)).1
  · refine (c8_restartFailedNode { baseEngine with
        nodes := ["P3"]
        pnode := fun m => m = "P3"
        job := fun m => if m = "P3" then .done true else .notLaunched
        artifacts := ["P3", "P3_1"] } "P3" 2).2.2.2 (by decide) (by decide)
      (by decide) ?_ ?_
    · intro j hj1 hj2
      have : j = 1 := by omega
      subst this
      have : identName "P3" 1 = "P3_1" := by decide
      rw [this]
      decide
    · intro hmem
      have : identName "P3" 2 = "P3_2" := by decide
      rw [this] at hmem
      revert hmem
      decide

/-! ## C1 — launch guard of the scheduling step -/

/-- A node's status lies in `{ENDED, SKIPPED}` — the predecessor condition
of `is_node_runnable`. -/
def inES (e : Engine) (n : String) : Prop :=
  getStatus e n = .ended ∨ getStatus e n = .skipped

theorem getStatus_eq_of (e eb : Engine) (n : String)
    (h1 : e.pnode n = eb.pnode n) (h2 : e.skipped n = eb.skipped n)
    (h3 : e.job n = eb.job n) : getStatus e n = getStatus eb n := by
  unfold getStatus
  rw [h1, h2, h3]

theorem isNodeRunnable_iff (e : Engine) (n : String) :
    isNodeRunnable e n = true ↔ ∀ q ∈ inNbrs e n, inES e q := by
  unfold isNodeRunnable inES
  rw [List.all_eq_true]
  constructor
  · intro h q hq
    have := h q hq
    rcases Bool.or_eq_true_iff.mp this with h1 | h1
    · exact Or.inl (of_decide_eq_true h1)
    · exact Or.inr (of_decide_eq_true h1)
  · intro h q hq
    rcases h q hq with h1 | h1
    · exact Bool.or_eq_true_iff.mpr (Or.inl (decide_eq_true h1))
    · exact Bool.or_eq_true_iff.mpr (Or.inr (decide_eq_true h1))

/-- Invariant carried through a single `__run_step`: the graph and flags
are untouched, the `{ENDED, SKIPPED}` set only shrinks (a launch can only
move a node out of it), every node of the runnable list was already there
or was runnable at step entry, and every job-handle change (a launch)
happened to a node that was runnable at step entry. -/
structure StepInv (e0 e : Engine) : Prop where
  edges_eq : e.edges = e0.edges
  pnode_eq : e.pnode = e0.pnode
  skipped_eq : e.skipped = e0.skipped
  stop_eq : e.stopFlag = e0.stopFlag
  es_shrink : ∀ n, inES e n → inES e0 n
  run_sub : ∀ m, m ∈ e.running → m ∈ e0.running ∨ isNodeRunnable e0 m = true
  job_launch : ∀ m, e.job m ≠ e0.job m → isNodeRunnable e0 m = true

theorem StepInv.refl (e : Engine) : StepInv e e :=
  ⟨rfl, rfl, rfl, rfl, fun _ h => h, fun _ h => Or.inl h, fun _ h => absurd rfl h⟩

theorem StepInv.runnable_transfer {e0 e : Engine} (h : StepInv e0 e)
    (m : String) (hr : isNodeRunnable e m = true) :
    isNodeRunnable e0 m = true := by
  rw [isNodeRunnable_iff] at hr ⊢
  intro q hq
  have hnb : inNbrs e m = inNbrs e0 m := by
    unfold inNbrs
    rw [h.edges_eq]
  exact h.es_shrink q (hr q (hnb ▸ hq))

/-- Launching a node never adds it to `{ENDED, SKIPPED}`. -/
theorem runNode_es_shrink (e : Engine) (v n : String)
    (h : inES (runNode e v) n) : inES e n := by
  by_cases hnv : n = v
  · subst hnv
    have hpn : (runNode e n).pnode n = e.pnode n := rfl
    have hsk : (runNode e n).skipped n = e.skipped n := rfl
    have hjob : (runNode e n).job n = .alive := by simp [runNode]
    unfold inES at h ⊢
    unfold getStatus at h ⊢
    rw [hpn, hsk, hjob] at h
    by_cases hp : e.pnode n = true
    · by_cases hs : e.skipped n = true
      · simp only [hp, hs, if_true] at h ⊢
        exact h
      · simp [hp, hs] at h
    · simp only [hp] at h ⊢
      exact h
  · have heq : getStatus (runNode e v) n = getStatus e n := by
      apply getStatus_eq_of
      · rfl
      · rfl
      · simp [runNode, hnv]
    unfold inES at h ⊢
    rw [heq] at h
    exact h

theorem stepSucc_inv {e0 e : Engine} (en v : String) (h : StepInv e0 e) :
    StepInv e0 (stepSucc en e v) := by
  unfold stepSucc
  by_cases h1 : isNodeRunnable e v = true ∧ v ∉ e.running
  · rw [if_pos h1]
    by_cases h2 : v ≠ en ∧ ¬ e.stopFlag = true
    · rw [if_pos h2]
      have hrun : ∀ m, m ∈ e.running ++ [v] →
          m ∈ e0.running ∨ isNodeRunnable e0 m = true := by
        intro m hm
        rcases List.mem_append.mp hm with hm | hm
        · exact h.run_sub m hm
        · have : m = v := List.mem_singleton.mp hm
          subst this
          exact Or.inr (h.runnable_transfer m h1.1)
      by_cases h3 : e.pnode v = true
      · simp only [h3, if_true]
        by_cases h4 : ¬ e.skipped v = true
        · rw [if_pos h4]
          refine ⟨?_, ?_, ?_, ?_, ?_, ?_, ?_⟩
          · exact h.edges_eq
          · exact h.pnode_eq
          · exact h.skipped_eq
          · exact h.stop_eq
          · intro n hn
            exact h.es_shrink n (runNode_es_shrink _ v n hn)
          · intro m hm
            exact hrun m (by simpa [runNode] using hm)
          · intro m hm
            by_cases hmv : m = v
            · subst hmv
              exact h.runnable_transfer m h1.1
            · apply h.job_launch m
              simpa [runNode, hmv] using hm
        · rw [if_neg h4]
          refine ⟨h.edges_eq, h.pnode_eq, h.skipped_eq, h.stop_eq, ?_, ?_, ?_⟩
          · intro n hn
            exact h.es_shrink n hn
          · intro m hm
            exact hrun m (by simpa [skipNodeEvent] using hm)
          · exact h.job_launch
      · simp only [h3]
        refine ⟨h.edges_eq, h.pnode_eq, h.skipped_eq, h.stop_eq, ?_, ?_, ?_⟩
        · intro n hn
          exact h.es_shrink n hn
        · intro m hm
          exact hrun m (by simpa using hm)
        · exact h.job_launch
    · rw [if_neg h2]
      exact h
  · rw [if_neg h1]
    exact h

theorem foldl_stepSucc_inv {e0 : Engine} (en : String) (l : List String) :
    ∀ {ec : Engine}, StepInv e0 ec → StepInv e0 (l.foldl (stepSucc en) ec) := by
  induction l with
  | nil => intro ec h; exact h
  | cons v rest ih =>
    intro ec h
    exact ih (stepSucc_inv en v h)

theorem stepRemove_inv {e0 e : Engine} (nid : String) (h : StepInv e0 e) :
    StepInv e0 (stepRemove e nid) := by
  have herase : StepInv e0 { e with running := e.running.erase nid } := by
    refine ⟨h.edges_eq, h.pnode_eq, h.skipped_eq, h.stop_eq, h.es_shrink, ?_,
      h.job_launch⟩
    intro m hm
    exact h.run_sub m (List.mem_of_mem_erase hm)
  unfold stepRemove
  by_cases h2 : ¬ e.skipped nid = true
  · rw [if_pos h2]
    exact ⟨herase.edges_eq, herase.pnode_eq, herase.skipped_eq, herase.stop_eq,
      herase.es_shrink, herase.run_sub, herase.job_launch⟩
  · rw [if_neg h2]
    exact herase

theorem stepNode_inv {e0 e : Engine} (en nid : String) (h : StepInv e0 e) :
    StepInv e0 (stepNode en e nid) := by
  unfold stepNode
  by_cases h1 : getStatus e nid = .ended ∨ getStatus e nid = .skipped
  · rw [if_pos h1]
    exact foldl_stepSucc_inv en _ (stepRemove_inv nid h)
  · rw [if_neg h1]
    by_cases h2 : getStatus e nid = .failed
    · rw [if_pos h2]
      unfold stepFail
      refine ⟨h.edges_eq, h.pnode_eq, h.skipped_eq, h.stop_eq, h.es_shrink, ?_,
        h.job_launch⟩
      intro m hm
      exact h.run_sub m (List.mem_of_mem_erase hm)
    · rw [if_neg h2]
      exact h

theorem runStep_inv (e : Engine) (en : String) : StepInv e (runStep e en) := by
  unfold runStep
  have : ∀ (l : List String) (ec : Engine), StepInv e ec →
      StepInv e (l.foldl (stepNode en) ec) := by
    intro l
    induction l with
    | nil => intro ec h; exact h
    | cons nid rest ih =>
      intro ec h
      exact ih (stepNode en ec nid) (stepNode_inv en nid h)
  exact this e.running e (StepInv.refl e)

/-- C1: a scheduling step adds a node to the runnable set, or launches it
(changes its job handle), only when every predecessor of the node has
status in `{ENDED, SKIPPED}` — a node whose predecessors are not all in
that set is never enqueued nor launched by `__run_step`. -/
theorem c1_step_launch_guard (e : Engine) (en m : String) :
    (m ∈ (runStep e en).running → m ∈ e.running ∨ isNodeRunnable e m = true)
    ∧ ((runStep e en).job m ≠ e.job m → isNodeRunnable e m = true) :=
  ⟨fun hm => (runStep_inv e en).run_sub m hm,
   fun hm => (runStep_inv e en).job_launch m hm⟩

/-- Witness for C1: in the two-node graph `s → P1` with `s` ended and
runnable, the step launches `P1`, and indeed `P1` was runnable before the
step. -/
theorem c1_step_launch_guard_witness :
    (runStep { baseEngine with
        nodes := ["s", "P1"]
        edges := [("s", "P1")]
        pnode := fun n => n = "P1"
        running := ["s"] } "_e").job "P1"
      ≠ ({ baseEngine with
        nodes := ["s", "P1"]
        edges := [("s", "P1")]
        pnode := fun n => n = "P1"
        running := ["s"] } : Engine).job "P1"
    ∧ isNodeRunnable { baseEngine with
        nodes := ["s", "P1"]
        edges := [("s", "P1")]
        pnode := fun n => n = "P1"
        running := ["s"] } "P1" = true :=
  ⟨by decide,
   (c1_step_launch_guard { baseEngine with
      nodes := ["s", "P1"]
      edges := [("s", "P1")]
      pnode := fun n => n = "P1"
      running := ["s"] } "_e" "P1").2 (by decide)⟩

/-! ## C2 — graceful-stop semantics -/

/-- Actions interleaved with the engine's polling loop: a scheduling step,
an external job finishing, or the `stop()` signal. -/
inductive EAct where
  | step (endNode : String)
  | finish (n : String) (failedJob : Bool)
  | stopSig
deriving Repr

def applyEAct (e : Engine) : EAct → Engine
  | .step en => runStep e en
  | .finish n fl => jobFinish e n fl
  | .stopSig => stopEngine e

def execEActs (e : Engine) (acts : List EAct) : Engine :=
  acts.foldl applyEAct e

theorem stepSucc_stopped (en v : String) (e : Engine) (h : e.stopFlag = true) :
    stepSucc en e v = e := by
  unfold stepSucc
  by_cases h1 : isNodeRunnable e v = true ∧ v ∉ e.running
  · rw [if_pos h1, if_neg]
    intro hc
    exact hc.2 h
  · rw [if_neg h1]

theorem foldl_stepSucc_stopped (en : String) (l : List String) (e : Engine)
    (h : e.stopFlag = true) : l.foldl (stepSucc en) e = e := by
  induction l with
  | nil => rfl
  | cons v rest ih =>
    simp only [List.foldl_cons, stepSucc_stopped en v e h]
    exact ih

/-- With the stop flag set, a scheduling step changes no job handle and
adds nothing to the runnable list (it only drains it). -/
theorem runStep_stopped (e : Engine) (en : String) (h : e.stopFlag = true) :
    (runStep e en).job = e.job
    ∧ (∀ m ∈ (runStep e en).running, m ∈ e.running)
    ∧ (runStep e en).stopFlag = true := by
  unfold runStep
  have key : ∀ (l : List String) (ec : Engine),
      ec.stopFlag = true → ec.job = e.job → (∀ m ∈ ec.running, m ∈ e.running) →
      (l.foldl (stepNode en) ec).job = e.job
      ∧ (∀ m ∈ (l.foldl (stepNode en) ec).running, m ∈ e.running)
      ∧ (l.foldl (stepNode en) ec).stopFlag = true := by
    intro l
    induction l with
    | nil =>
      intro ec h1 h2 h3
      exact ⟨h2, h3, h1⟩
    | cons nid rest ih =>
      intro ec h1 h2 h3
      simp only [List.foldl_cons]
      apply ih
      · unfold stepNode
        split
        · rw [foldl_stepSucc_stopped en _ _ (by simpa [stepRemove] using
            (show (stepRemove ec nid).stopFlag = true by
              unfold stepRemove
              split <;> exact h1))]
          unfold stepRemove
          split <;> exact h1
        · split
          · exact h1
          · exact h1
      · unfold stepNode
        split
        · rw [foldl_stepSucc_stopped en _ _ (show (stepRemove ec nid).stopFlag = true by
            unfold stepRemove
            split <;> exact h1)]
          unfold stepRemove
          split <;> exact h2
        · split
          · exact h2
          · exact h2
      · unfold stepNode
        split
        · rw [foldl_stepSucc_stopped en _ _ (show (stepRemove ec nid).stopFlag = true by
            unfold stepRemove
            split <;> exact h1)]
          unfold stepRemove
          split
          · intro m hm
            exact h3 m (List.mem_of_mem_erase hm)
          · intro m hm
            exact h3 m (List.mem_of_mem_erase hm)
        · split
          · intro m hm
            exact h3 m (List.mem_of_mem_erase (by simpa [stepFail] using hm))
          · exact h3
  exact key e.running e h rfl (fun m hm => hm)

theorem applyEAct_stopFlag (e : Engine) (a : EAct) (h : e.stopFlag = true) :
    (applyEAct e a).stopFlag = true := by
  cases a with
  | step en =>
    show (runStep e en).stopFlag = true
    exact (runStep_stopped e en h).2.2
  | finish n fl =>
    show (jobFinish e n fl).stopFlag = true
    unfold jobFinish
    split <;> exact h
  | stopSig => rfl

theorem applyEAct_no_launch (e : Engine) (a : EAct) (m : String)
    (hstop : e.stopFlag = true) (h : e.job m = .notLaunched) :
    (applyEAct e a).job m = .notLaunched := by
  cases a with
  | step en =>
    show (runStep e en).job m = .notLaunched
    rw [(runStep_stopped e en hstop).1]
    exact h
  | finish n fl =>
    show (jobFinish e n fl).job m = .notLaunched
    unfold jobFinish
    split
    · next hn =>
      by_cases hmn : m = n
      · subst hmn
        rw [h] at hn
        cases hn
      · simpa [hmn] using h
    · exact h
  | stopSig => exact h

/-- C2 counterexample: the claim says the workflow becomes `FAILED` with
the "stopped" content once the runnable set drains — but `run`'s loop is
`while not self.__stopped`, so with the flag set it exits at the next check
and emits `WORKFLOW_EVENT(FAILED, "Workflow stopped")` immediately, while a
node is still in flight (the engine stops polling the in-flight job rather
than waiting for it).  The "stopped" event is not preceded by a drained
runnable set. -/
theorem c2_counterexample :
    ¬ (∀ e : Engine,
        (runExit e).events.getLast? = some (.workflowEvent .failed "Workflow stopped") →
        (runExit e).running = []) := by
  intro hclaim
  have h := hclaim { baseEngine with
    nodes := ["P1"]
    pnode := fun n => n = "P1"
    job := fun n => if n = "P1" then .alive else .notLaunched
    running := ["P1"]
    stopFlag := true
    wstatus := .running } (by decide)
  have : (runExit { baseEngine with
    nodes := ["P1"]
    pnode := fun n => n = "P1"
    job := fun n => if n = "P1" then .alive else .notLaunched
    running := ["P1"]
    stopFlag := true
    wstatus := .running }).running = ["P1"] := by decide
  rw [this] at h
  cases h

/-- C2 (amended): after `stop()` sets the stop flag, no scheduling step
launches a new node or adds to the runnable set, and along any
continuation of engine steps and job completions no unlaunched node is
ever launched (every launch precedes the stop signal); in-flight jobs are
not terminated by the engine, but the run loop exits at its next check
without waiting for the runnable set to drain, and the workflow status
then immediately becomes `FAILED` with the "Workflow stopped" content in
the emitted `WORKFLOW_EVENT` (unless the workflow had already ended). -/
theorem c2_graceful_stop (e : Engine) (en m : String) (acts : List EAct)
    (fuel : Nat) :
    (e.stopFlag = true → (runStep e en).job = e.job
      ∧ ∀ q ∈ (runStep e en).running, q ∈ e.running)
    ∧ (e.stopFlag = true → e.job m = .notLaunched →
        (execEActs e acts).job m = .notLaunched)
    ∧ (e.stopFlag = true → runLoop en (fuel + 1) e = some e)
    ∧ (e.stopFlag = true → e.wstatus ≠ .ended →
        (runExit e).wstatus = .failed
        ∧ (runExit e).events
            = e.events ++ [.workflowEvent .failed "Workflow stopped"]
        ∧ (runExit e).running = e.running) := by
  refine ⟨?_, ?_, ?_, ?_⟩
  · intro h
    exact ⟨(runStep_stopped e en h).1, (runStep_stopped e en h).2.1⟩
  · intro hstop hm
    unfold execEActs
    clear en
    induction acts generalizing e with
    | nil => exact hm
    | cons a rest ih =>
      simp only [List.foldl_cons]
      exact ih (applyEAct e a) (applyEAct_stopFlag e a hstop)
        (applyEAct_no_launch e a m hstop hm)
  · intro h
    unfold runLoop
    rw [if_pos h]
  · intro h1 h2
    unfold runExit
    rw [if_pos ⟨h1, h2⟩]
    exact ⟨rfl, rfl, rfl⟩

/-- Witness for C2 at a concrete stopped state with a node in flight. -/
theorem c2_graceful_stop_witness :
    runLoop "_e" 4 { baseEngine with
      nodes := ["P1"]
      pnode := fun n => n = "P1"
      job := fun n => if n = "P1" then .alive else .notLaunched
      running := ["P1"]
      stopFlag := true
      wstatus := .running }
      = some { baseEngine with
        nodes := ["P1"]
        pnode := fun n => n = "P1"
        job := fun n => if n = "P1" then .alive else .notLaunched
        running := ["P1"]
        stopFlag := true
        wstatus := .running }
    ∧ (runExit { baseEngine with
        nodes := ["P1"]
        pnode := fun n => n = "P1"
        job := fun n => if n = "P1" then .alive else .notLaunched
        running := ["P1"]
        stopFlag := true
        wstatus := .running }).wstatus = .failed :=
  ⟨(c2_graceful_stop { baseEngine with
      nodes := ["P1"]
      pnode := fun n => n = "P1"
      job := fun n => if n = "P1" then .alive else .notLaunched
      running := ["P1"]
      stopFlag := true
      wstatus := .running } "_e" "P1" [] 3).2.2.1 rfl,
   ((c2_graceful_stop { baseEngine with
      nodes := ["P1"]
      pnode := fun n => n = "P1"
      job := fun n => if n = "P1" then .alive else .notLaunched
      running := ["P1"]
      stopFlag := true
      wstatus := .running } "_e" "P1" [] 3).2.2.2 rfl (by decide)).1⟩

/-! ## C3 — node-local failure handling -/

theorem mem_inNbrs_of_edge (e : Engine) (u v : String) (h : (u, v) ∈ e.edges) :
    u ∈ inNbrs e v := by
  unfold inNbrs
  exact List.mem_map.mpr ⟨(u, v), List.mem_filter.mpr ⟨h, by simp⟩, rfl⟩

theorem someFailedTask_iff (e : Engine) :
    someFailedTask e = true ↔
      ∃ n, n ∈ e.nodes ∧ e.pnode n = true
        ∧ ¬ (getStatus e n = .ended ∨ getStatus e n = .skipped) := by
  unfold someFailedTask
  rw [List.any_eq_true]
  constructor
  · rintro ⟨n, hn, hdec⟩
    have hprop : ¬ (getStatus e n = .ended ∨ getStatus e n = .skipped) :=
      of_decide_eq_true hdec
    refine ⟨n, hn, ?_, hprop⟩
    by_cases hp : e.pnode n = true
    · exact hp
    · exfalso
      apply hprop
      left
      unfold getStatus
      simp [hp]
  · rintro ⟨n, hn, _, hprop⟩
    exact ⟨n, hn, decide_eq_true hprop⟩

/-- C3: when a playbook node reports `FAILED`, the step removes it from the
runnable set, stamps its ended time and emits `NODE_EVENT(FAILED)` without
touching its successors (their jobs stay unlaunched, their statuses stay
`NOT_STARTED`, and they are not enqueued); the step keeps folding over the
remaining runnable nodes; and once the runnable set drains while some node
is outside `{ENDED, SKIPPED}` — for nodes this can only be a playbook,
since block status is constantly `ENDED` — the loop iteration settles the
workflow status to `FAILED`, emits the waiting-for-retry event, clears the
resume event and keeps looping (bounded wait) instead of exiting. -/
theorem c3_failed_node_handling (e : Engine) (en m v : String) :
    (getStatus e m = .failed →
      stepNode en e m = stepFail e m
      ∧ (stepFail e m).running = e.running.erase m
      ∧ (stepFail e m).endedAt m = true
      ∧ (stepFail e m).events = e.events ++ [.nodeEvent .failed m])
    ∧ (getStatus e m = .failed → (m, v) ∈ e.edges → v ∉ e.running →
        v ∉ (runStep e en).running
        ∧ (runStep e en).job v = e.job v
        ∧ getStatus (runStep e en) v = getStatus e v)
    ∧ (∀ m0 rest, e.running = m0 :: rest →
        runStep e en = rest.foldl (stepNode en) (stepNode en e m0))
    ∧ ((runStep e en).running = [] → someFailedTask (runStep e en) = true →
        (loopIter e en).2 = true
        ∧ (loopIter e en).1.wstatus = .failed
        ∧ (loopIter e en).1.resumeSignal = false
        ∧ (loopIter e en).1.events = (runStep e en).events ++
            [.workflowEvent .failed "Workflow failed, waiting for retry."])
    ∧ (someFailedTask e = true ↔ ∃ n, n ∈ e.nodes ∧ e.pnode n = true
        ∧ ¬ (getStatus e n = .ended ∨ getStatus e n = .skipped)) := by
  refine ⟨?_, ?_, ?_, ?_, someFailedTask_iff e⟩
  · intro hm
    have h1 : ¬ (getStatus e m = .ended ∨ getStatus e m = .skipped) := by
      rw [hm]
      rintro (hc | hc) <;> cases hc
    constructor
    · unfold stepNode
      rw [if_neg h1, if_pos hm]
    · refine ⟨rfl, ?_, rfl⟩
      unfold stepFail
      simp
  · intro hm hedge hvrun
    have hnr : ¬ isNodeRunnable e v = true := by
      intro hr
      have := (isNodeRunnable_iff e v).mp hr m (mem_inNbrs_of_edge e m v hedge)
      unfold inES at this
      rw [hm] at this
      rcases this with hc | hc <;> cases hc
    have hinv := runStep_inv e en
    refine ⟨?_, ?_, ?_⟩
    · intro hvmem
      rcases hinv.run_sub v hvmem with hc | hc
      · exact hvrun hc
      · exact hnr hc
    · by_cases hjob : (runStep e en).job v = e.job v
      · exact hjob
      · exact absurd (hinv.job_launch v hjob) hnr
    · apply getStatus_eq_of
      · rw [hinv.pnode_eq]
      · rw [hinv.skipped_eq]
      · by_cases hjob : (runStep e en).job v = e.job v
        · exact hjob
        · exact absurd (hinv.job_launch v hjob) hnr
  · intro m0 rest hrun
    unfold runStep
    rw [hrun]
    rfl
  · intro hdrain hfail
    unfold loopIter
    rw [if_pos (by rw [hdrain]; rfl), if_pos hfail]
    exact ⟨rfl, rfl, rfl, rfl⟩

/-- Witness for C3 on the chain `s → P3 → P4` with `P3` failed and
runnable: the step drains, `P4` stays untouched, and the loop settles to
`FAILED` while continuing to wait. -/
theorem c3_failed_node_handling_witness :
    ("P4" ∉ (runStep { baseEngine with
        nodes := ["s", "P3", "P4"]
        edges := [("s", "P3"), ("P3", "P4")]
        pnode := fun n => n ≠ "s"
        job := fun n => if n = "P3" then .done true else .notLaunched
        running := ["P3"] } "_e").running)
    ∧ (loopIter { baseEngine with
        nodes := ["s", "P3", "P4"]
        edges := [("s", "P3"), ("P3", "P4")]
        pnode := fun n => n ≠ "s"
        job := fun n => if n = "P3" then .done true else .notLaunched
        running := ["P3"] } "_e").1.wstatus = .failed :=
  ⟨((c3_failed_node_handling { baseEngine with
      nodes := ["s", "P3", "P4"]
      edges := [("s", "P3"), ("P3", "P4")]
      pnode := fun n => n ≠ "s"
      job := fun n => if n = "P3" then .done true else .notLaunched
      running := ["P3"] } "_e" "P3" "P4").2.1 (by decide) (by decide)
      (by decide)).1,
   ((c3_failed_node_handling { baseEngine with
      nodes := ["s", "P3", "P4"]
      edges := [("s", "P3"), ("P3", "P4")]
      pnode := fun n => n ≠ "s"
      job := fun n => if n = "P3" then .done true else .notLaunched
      running := ["P3"] } "_e" "P3" "P4").2.2.2.1 (by decide) (by decide)).2.1⟩

/-! ## C7 — skip pre-marking and skipped nodes in the scheduler -/

/-- Non-empty directed path along an edge list. -/
inductive Path (E : List (String × String)) : String → String → Prop where
  | single {a b : String} : (a, b) ∈ E → Path E a b
  | cons {a b c : String} : (a, b) ∈ E → Path E b c → Path E a c

/-- Last-edge decomposition of a path. -/
theorem Path.last_decomp {E : List (String × String)} {a c : String}
    (h : Path E a c) : (a, c) ∈ E ∨ ∃ b, Path E a b ∧ (b, c) ∈ E := by
  induction h with
  | single hab => exact Or.inl hab
  | cons hab _ ih =>
    rcases ih with hbc | ⟨b2, hp, hb2⟩
    · exact Or.inr ⟨_, Path.single hab, hbc⟩
    · exact Or.inr ⟨b2, Path.cons hab hp, hb2⟩

theorem markSkipped_edges (e : Engine) (n : String) :
    (markSkipped e n).edges = e.edges := rfl

theorem markSkipped_skipped (e : Engine) (n m : String)
    (h : e.skipped m = true) : (markSkipped e n).skipped m = true := by
  unfold markSkipped
  by_cases hm : m = n <;> simp [hm, h]

theorem markSkipped_self (e : Engine) (n : String) :
    (markSkipped e n).skipped n = true := by
  simp [markSkipped]

theorem skipFromStart_spec (fuel : Nat) :
    ∀ (e : Engine) (stack : List String) (e2 : Engine),
      skipFromStart fuel e stack = some e2 →
      e2.edges = e.edges
      ∧ (∀ n, e.skipped n = true → e2.skipped n = true)
      ∧ (∀ x y, y ∈ stack → (x = y ∨ Path e.edges x y) → e2.skipped x = true) := by
  induction fuel with
  | zero =>
    intro e stack e2 h
    rw [skipFromStart] at h
    cases hl : stack.getLast? with
    | none =>
      rw [hl] at h
      simp only [Option.some.injEq] at h
      subst h
      refine ⟨rfl, fun n hn => hn, ?_⟩
      intro x y hy _
      exact absurd hl (by simp [List.getLast?_eq_none_iff,
        List.ne_nil_of_mem hy])
    | some n =>
      rw [hl] at h
      cases h
  | succ fuel ih =>
    intro e stack e2 h
    rw [skipFromStart] at h
    cases hl : stack.getLast? with
    | none =>
      rw [hl] at h
      simp only [Option.some.injEq] at h
      subst h
      refine ⟨rfl, fun n hn => hn, ?_⟩
      intro x y hy _
      exact absurd hl (by simp [List.getLast?_eq_none_iff,
        List.ne_nil_of_mem hy])
    | some n =>
      rw [hl] at h
      simp only at h
      obtain ⟨hedges, hmono, hstack⟩ := ih (markSkipped e n)
        (stack.dropLast ++ inNbrs (markSkipped e n) n) e2 h
      have hsplit : ∀ y ∈ stack, y ∈ stack.dropLast ∨ y = n := by
        intro y hy
        have hrec : stack.dropLast ++ [n] = stack :=
          List.dropLast_append_getLast? n hl
        rw [← hrec] at hy
        rcases List.mem_append.mp hy with hy | hy
        · exact Or.inl hy
        · exact Or.inr (List.mem_singleton.mp hy)
      refine ⟨hedges, fun m hm => hmono m (markSkipped_skipped e n m hm), ?_⟩
      intro x y hy hxy
      rcases hsplit y hy with hy2 | hy2
      · exact hstack x y (List.mem_append_left _ hy2)
          (by rwa [markSkipped_edges])
      · subst hy2
        rcases hxy with hx | hx
        · subst hx
          exact hmono x (markSkipped_self e x)
        · rcases hx.last_decomp with hedge | ⟨b, hp, hb⟩
          · exact hstack x x (List.mem_append_right _
              (mem_inNbrs_of_edge (markSkipped e y) x y hedge)) (Or.inl rfl)
          · exact hstack x b (List.mem_append_right _
              (mem_inNbrs_of_edge (markSkipped e y) b y hb))
              (Or.inr (by rwa [markSkipped_edges]))

theorem mem_outNbrs_of_edge (e : Engine) (u v : String) (h : (u, v) ∈ e.edges) :
    v ∈ outNbrs e u := by
  unfold outNbrs
  exact List.mem_map.mpr ⟨(u, v), List.mem_filter.mpr ⟨h, by simp⟩, rfl⟩

theorem skipFromEnd_spec (fuel : Nat) :
    ∀ (e : Engine) (stack : List String) (e2 : Engine),
      skipFromEnd fuel e stack = some e2 →
      e2.edges = e.edges
      ∧ (∀ n, e.skipped n = true → e2.skipped n = true)
      ∧ (∀ x y, y ∈ stack → (x = y ∨ Path e.edges y x) → e2.skipped x = true) := by
  induction fuel with
  | zero =>
    intro e stack e2 h
    rw [skipFromEnd] at h
    cases hl : stack.getLast? with
    | none =>
      rw [hl] at h
      simp only [Option.some.injEq] at h
      subst h
      refine ⟨rfl, fun n hn => hn, ?_⟩
      intro x y hy _
      exact absurd hl (by simp [List.getLast?_eq_none_iff,
        List.ne_nil_of_mem hy])
    | some n =>
      rw [hl] at h
      cases h
  | succ fuel ih =>
    intro e stack e2 h
    rw [skipFromEnd] at h
    cases hl : stack.getLast? with
    | none =>
      rw [hl] at h
      simp only [Option.some.injEq] at h
      subst h
      refine ⟨rfl, fun n hn => hn, ?_⟩
      intro x y hy _
      exact absurd hl (by simp [List.getLast?_eq_none_iff,
        List.ne_nil_of_mem hy])
    | some n =>
      rw [hl] at h
      simp only at h
      obtain ⟨hedges, hmono, hstack⟩ := ih (markSkipped e n)
        (stack.dropLast ++ outNbrs (markSkipped e n) n) e2 h
      have hsplit : ∀ y ∈ stack, y ∈ stack.dropLast ∨ y = n := by
        intro y hy
        have hrec : stack.dropLast ++ [n] = stack :=
          List.dropLast_append_getLast? n hl
        rw [← hrec] at hy
        rcases List.mem_append.mp hy with hy | hy
        · exact Or.inl hy
        · exact Or.inr (List.mem_singleton.mp hy)
      refine ⟨hedges, fun m hm => hmono m (markSkipped_skipped e n m hm), ?_⟩
      intro x y hy hxy
      rcases hsplit y hy with hy2 | hy2
      · exact hstack x y (List.mem_append_left _ hy2)
          (by rwa [markSkipped_edges])
      · subst hy2
        rcases hxy with hx | hx
        · subst hx
          exact hmono x (markSkipped_self e x)
        · cases hx with
          | single hedge =>
            exact hstack x x (List.mem_append_right _
              (mem_outNbrs_of_edge (markSkipped e y) y x hedge)) (Or.inl rfl)
          | cons hyb hp =>
            refine hstack x _ (List.mem_append_right _
              (mem_outNbrs_of_edge (markSkipped e y) y _ hyb)) (Or.inr ?_)
            rw [markSkipped_edges]
            exact hp

theorem foldl_markSkipped_edges (l : List String) :
    ∀ e : Engine, (l.foldl markSkipped e).edges = e.edges := by
  induction l with
  | nil => intro e; rfl
  | cons n rest ih =>
    intro e
    simp only [List.foldl_cons]
    rw [ih (markSkipped e n)]
    rfl

theorem foldl_markSkipped_skipped (l : List String) :
    ∀ e : Engine,
      (∀ n ∈ l, (l.foldl markSkipped e).skipped n = true)
      ∧ (∀ n, e.skipped n = true → (l.foldl markSkipped e).skipped n = true) := by
  induction l with
  | nil =>
    intro e
    exact ⟨fun n hn => absurd hn (List.not_mem_nil n), fun n hn => hn⟩
  | cons m rest ih =>
    intro e
    simp only [List.foldl_cons]
    constructor
    · intro n hn
      rcases List.mem_cons.mp hn with hn | hn
      · subst hn
        exact (ih (markSkipped e n)).2 n (markSkipped_self e n)
      · exact (ih (markSkipped e m)).1 n hn
    · intro n hn
      exact (ih (markSkipped e m)).2 n (markSkipped_skipped e m n hn)

/-- `_set_skipped_nodes` marks the whole stored skip list, every transitive
predecessor of the start node and every transitive successor of the end
node. -/
theorem setSkipMarks_marks (e : Engine) (s en : String) (fuel : Nat)
    (e2 : Engine) (h : setSkipMarks e s en fuel = some e2) :
    (∀ n ∈ e.skipList, e2.skipped n = true)
    ∧ (∀ x, Path e.edges x s → e2.skipped x = true)
    ∧ (∀ x, Path e.edges en x → e2.skipped x = true) := by
  unfold setSkipMarks at h
  cases hs : skipFromStart fuel (e.skipList.foldl markSkipped e)
      (inNbrs (e.skipList.foldl markSkipped e) s) with
  | none =>
    rw [hs] at h
    cases h
  | some e1 =>
    rw [hs] at h
    obtain ⟨hed1, hmono1, hstack1⟩ := skipFromStart_spec fuel _ _ _ hs
    obtain ⟨hed2, hmono2, hstack2⟩ := skipFromEnd_spec fuel _ _ _ h
    have hedges0 : (e.skipList.foldl markSkipped e).edges = e.edges :=
      foldl_markSkipped_edges e.skipList e
    refine ⟨?_, ?_, ?_⟩
    · intro n hn
      exact hmono2 n (hmono1 n ((foldl_markSkipped_skipped e.skipList e).1 n hn))
    · intro x hx
      apply hmono2
      rcases hx.last_decomp with hedge | ⟨b, hp, hb⟩
      · exact hstack1 x x (mem_inNbrs_of_edge _ x s (by rwa [hedges0]))
          (Or.inl rfl)
      · exact hstack1 x b (mem_inNbrs_of_edge _ b s (by rwa [hedges0]))
          (Or.inr (by rwa [hedges0]))
    · intro x hx
      have hed1s : e1.edges = e.edges := by rw [hed1, hedges0]
      cases hx with
      | single hedge =>
        exact hstack2 x x (mem_outNbrs_of_edge e1 en x (by rwa [hed1s]))
          (Or.inl rfl)
      | cons hyb hp =>
        refine hstack2 x _ (mem_outNbrs_of_edge e1 en _ (by rwa [hed1s]))
          (Or.inr ?_)
        rw [hed1s]
        exact hp

theorem stepSucc_skip_frozen (en v : String) (e0 : Engine) (m : String)
    (hm : e0.skipped m = true) :
    ∀ e : Engine, e.skipped = e0.skipped → e.job m = e0.job m →
      (stepSucc en e v).skipped = e0.skipped ∧ (stepSucc en e v).job m = e0.job m := by
  intro e hsk hjob
  unfold stepSucc
  by_cases h1 : isNodeRunnable e v = true ∧ v ∉ e.running
  · rw [if_pos h1]
    by_cases h2 : v ≠ en ∧ ¬ e.stopFlag = true
    · rw [if_pos h2]
      by_cases h3 : e.pnode v = true
      · simp only [h3, if_true]
        by_cases h4 : ¬ e.skipped v = true
        · rw [if_pos h4]
          have hmv : m ≠ v := by
            intro hc
            subst hc
            rw [hsk] at h4
            exact h4 hm
          constructor
          · exact hsk
          · simp only [runNode]
            rw [if_neg hmv]
            exact hjob
        · rw [if_neg h4]
          exact ⟨hsk, hjob⟩
      · simp only [h3]
        exact ⟨hsk, hjob⟩
    · rw [if_neg h2]
      exact ⟨hsk, hjob⟩
  · rw [if_neg h1]
    exact ⟨hsk, hjob⟩

theorem stepNode_skip_frozen (en nid : String) (e0 : Engine) (m : String)
    (hm : e0.skipped m = true) :
    ∀ e : Engine, e.skipped = e0.skipped → e.job m = e0.job m →
      (stepNode en e nid).skipped = e0.skipped
      ∧ (stepNode en e nid).job m = e0.job m := by
  intro e hsk hjob
  unfold stepNode
  split
  · have hrm : (stepRemove e nid).skipped = e0.skipped
        ∧ (stepRemove e nid).job m = e0.job m := by
      unfold stepRemove
      split <;> exact ⟨hsk, hjob⟩
    have key : ∀ (l : List String) (ec : Engine),
        ec.skipped = e0.skipped → ec.job m = e0.job m →
        (l.foldl (stepSucc en) ec).skipped = e0.skipped
        ∧ (l.foldl (stepSucc en) ec).job m = e0.job m := by
      intro l
      induction l with
      | nil => intro ec h1 h2; exact ⟨h1, h2⟩
      | cons v rest ih =>
        intro ec h1 h2
        simp only [List.foldl_cons]
        obtain ⟨h3, h4⟩ := stepSucc_skip_frozen en v e0 m hm ec h1 h2
        exact ih (stepSucc en ec v) h3 h4
    exact key _ _ hrm.1 hrm.2
  · split
    · exact ⟨hsk, hjob⟩
    · exact ⟨hsk, hjob⟩

/-- A scheduling step never creates the job handle of a node whose skip
flag is set. -/
theorem runStep_no_launch_skipped (e : Engine) (en m : String)
    (hm : e.skipped m = true) : (runStep e en).job m = e.job m := by
  unfold runStep
  have key : ∀ (l : List String) (ec : Engine),
      ec.skipped = e.skipped → ec.job m = e.job m →
      (l.foldl (stepNode en) ec).job m = e.job m := by
    intro l
    induction l with
    | nil => intro ec _ h2; exact h2
    | cons nid rest ih =>
      intro ec h1 h2
      simp only [List.foldl_cons]
      obtain ⟨h3, h4⟩ := stepNode_skip_frozen en nid e m hm ec h1 h2
      exact ih (stepNode en ec nid) h3 h4
  exact key e.running e rfl rfl

/-- C7 counterexample: the claim says a node marked `SKIPPED` is never
launched — but `run` launches the start node unconditionally when it is a
playbook, skip flag or not.  With skip list `[P1]` and `start_node = P1`,
the prelude marks `P1` skipped and then creates its job handle anyway. -/
theorem c7_counterexample :
    (runPrelude { baseEngine with
        nodes := ["P1"]
        pnode := fun n => n = "P1"
        skipList := ["P1"] } "P1" "_e" 3).map
        (fun x => (x.skipped "P1", x.job "P1", x.identOf "P1"))
      = some (true, .alive, some "P1")
    ∧ ({ baseEngine with
        nodes := ["P1"]
        pnode := fun n => n = "P1"
        skipList := ["P1"] } : Engine).job "P1" = .notLaunched := by
  constructor
  · decide
  · rfl

/-- C7 (amended): before the loop, `run` marks as `SKIPPED` every node
outside a non-empty filter set, every node of the stored skip set, every
transitive predecessor of the start node and every transitive successor of
the end node; a node so marked is never launched *by a scheduling step*
(its job handle is untouched by `__run_step`), and it still passes through
the runnable set — it is enqueued (with `PRE_RUNNING` then `SKIPPED`
events, no launch), its status reads `SKIPPED`, and its removal scans its
successors, so their predecessor condition is met.  However, `run`
launches the start node unconditionally when it is a playbook, even when
it is marked `SKIPPED`. -/
theorem c7_skip_marking (e e2 : Engine) (f : List String) (s en m v : String)
    (fuel : Nat) :
    (f ≠ [] → ∀ n ∈ e.nodes, n ∉ f → n ∈ (setFilteredNodes e f).skipList)
    ∧ (setSkipMarks e s en fuel = some e2 →
        (∀ n ∈ e.skipList, e2.skipped n = true)
        ∧ (∀ x, Path e.edges x s → e2.skipped x = true)
        ∧ (∀ x, Path e.edges en x → e2.skipped x = true))
    ∧ (e.skipped m = true → (runStep e en).job m = e.job m)
    ∧ (e.pnode m = true → e.skipped m = true →
        getStatus e m = .skipped
        ∧ (stepRemove e m).running = e.running.erase m
        ∧ (stepRemove e m).events = e.events)
    ∧ (isNodeRunnable e v = true → v ∉ e.running → v ≠ en →
        e.stopFlag = false → e.pnode v = true → e.skipped v = true →
        v ∈ (stepSucc en e v).running
        ∧ (stepSucc en e v).job = e.job
        ∧ (stepSucc en e v).events
            = e.events ++ [.nodeEvent .preRunning v, .nodeEvent .skipped v]) := by
  refine ⟨?_, setSkipMarks_marks e s en fuel e2, runStep_no_launch_skipped e en m,
    ?_, ?_⟩
  · intro hf n hn hnf
    unfold setFilteredNodes
    rw [if_pos (List.length_pos.mpr hf)]
    exact List.mem_filter.mpr ⟨hn, by simpa using hnf⟩
  · intro hp hsk
    refine ⟨?_, ?_, ?_⟩
    · unfold getStatus
      rw [hp, hsk]
      rfl
    · unfold stepRemove
      rw [if_neg (by simpa using hsk)]
    · unfold stepRemove
      rw [if_neg (by simpa using hsk)]
  · intro hrun hnot hne hstop hp hsk
    unfold stepSucc
    rw [if_pos ⟨hrun, hnot⟩, if_pos ⟨hne, by simp [hstop]⟩]
    simp only [hp, if_true]
    rw [if_neg (by simpa using hsk)]
    refine ⟨?_, rfl, ?_⟩
    · simp [skipNodeEvent]
    · simp [skipNodeEvent]

/-- Witness for C7: chain `s → P1`, filter `[P2]`, and a concrete skipped
runnable node passing through the scheduler without a launch. -/
theorem c7_skip_marking_witness :
    ("P1" ∈ (setFilteredNodes { baseEngine with
        nodes := ["P1", "P2"] } ["P2"]).skipList)
    ∧ (runStep { baseEngine with
        nodes := ["s", "P1"]
        edges := [("s", "P1")]
        pnode := fun n => n = "P1"
        skipped := fun n => n = "P1"
        running := ["P1"] } "_e").job "P1"
        = ({ baseEngine with
            nodes := ["s", "P1"]
            edges := [("s", "P1")]
            pnode := fun n => n = "P1"
            skipped := fun n => n = "P1"
            running := ["P1"] } : Engine).job "P1"
    ∧ getStatus { baseEngine with
        nodes := ["s", "P1"]
        edges := [("s", "P1")]
        pnode := fun n => n = "P1"
        skipped := fun n => n = "P1"
        running := ["P1"] } "P1" = .skipped :=
  ⟨(c7_skip_marking { baseEngine with nodes := ["P1", "P2"] } baseEngine
      ["P2"] "_s" "_e" "P1" "P1" 1).1 (by decide) "P1" (by decide) (by decide),
   (c7_skip_marking { baseEngine with
        nodes := ["s", "P1"]
        edges := [("s", "P1")]
        pnode := fun n => n = "P1"
        skipped := fun n => n = "P1"
        running := ["P1"] } baseEngine [] "_s" "_e" "P1" "P1" 1).2.2.1 (by decide),
   ((c7_skip_marking { baseEngine with
        nodes := ["s", "P1"]
        edges := [("s", "P1")]
        pnode := fun n => n = "P1"
        skipped := fun n => n = "P1"
        running := ["P1"] } baseEngine [] "_s" "_e" "P1" "P1" 1).2.2.2.1
      (by decide) (by decide)).1⟩

/-! ## Compiler lemmas (C4, C5) -/

theorem assignId_edges (gen : Nat → String) (d : Decl) (st : CompState) :
    (assignId gen d st).2.edges = st.edges := by
  cases d with
  | playbook i path => cases i <;> rfl
  | block i bs ch => cases i <;> rfl

theorem assignId_nodes (gen : Nat → String) (d : Decl) (st : CompState) :
    (assignId gen d st).2.nodes = st.nodes := by
  cases d with
  | playbook i path => cases i <;> rfl
  | block i bs ch => cases i <;> rfl

theorem entryStart_parents (gen : Nat → String) (strat : Strategy) (d : Decl)
    (a : Acc) :
    (entryStart gen strat d a).parents = if strat = .serial then [] else a.parents := by
  unfold entryStart
  split <;> simp_all

theorem entryStart_zero (gen : Nat → String) (strat : Strategy) (d : Decl)
    (a : Acc) :
    (entryStart gen strat d a).zero = if strat = .serial then [] else a.zero := by
  unfold entryStart
  split <;> simp_all

theorem entryStart_nodes (gen : Nat → String) (strat : Strategy) (d : Decl)
    (a : Acc) : (entryStart gen strat d a).st.nodes = a.st.nodes := by
  unfold entryStart
  split <;> simp [assignId_nodes]

theorem entryStart_edges_mem (gen : Nat → String) (strat : Strategy) (d : Decl)
    (a : Acc) (p : String × String) (hp : p ∈ a.st.edges) :
    p ∈ (entryStart gen strat d a).st.edges := by
  unfold entryStart
  split
  · simp only
    rw [assignId_edges]
    exact List.mem_append_left _ (List.mem_append_left _ hp)
  · simp only
    rw [assignId_edges]
    exact List.mem_append_left _ hp

theorem entryStart_parent_edge (gen : Nat → String) (strat : Strategy) (d : Decl)
    (a : Acc) (x : String) (hx : x ∈ a.parents) :
    (x, (assignId gen d a.st).1) ∈ (entryStart gen strat d a).st.edges := by
  unfold entryStart
  split
  · simp only
    exact List.mem_append_left _ (List.mem_append_right _
      (List.mem_map.mpr ⟨x, hx, rfl⟩))
  · simp only
    exact List.mem_append_right _ (List.mem_map.mpr ⟨x, hx, rfl⟩)

theorem entryStart_zero_edge (gen : Nat → String) (d : Decl)
    (a : Acc) (x : String) (hx : x ∈ a.zero) :
    (x, (assignId gen d a.st).1) ∈ (entryStart gen .serial d a).st.edges := by
  unfold entryStart
  simp only [if_pos rfl]
  exact List.mem_append_right _ (List.mem_map.mpr ⟨x, hx, rfl⟩)

theorem entryStart_edge_cases (gen : Nat → String) (strat : Strategy) (d : Decl)
    (a : Acc) (p : String × String)
    (hp : p ∈ (entryStart gen strat d a).st.edges) :
    p ∈ a.st.edges
    ∨ (p.2 = (assignId gen d a.st).1 ∧ (p.1 ∈ a.parents ∨ p.1 ∈ a.zero)) := by
  unfold entryStart at hp
  split at hp
  · simp only at hp
    rw [assignId_edges] at hp
    rcases List.mem_append.mp hp with hp1 | hp1
    · rcases List.mem_append.mp hp1 with hp2 | hp2
      · exact Or.inl hp2
      · obtain ⟨q, hq, hqe⟩ := List.mem_map.mp hp2
        exact Or.inr ⟨by rw [← hqe], Or.inl (by rw [← hqe] at *; exact hq)⟩
    · obtain ⟨q, hq, hqe⟩ := List.mem_map.mp hp1
      exact Or.inr ⟨by rw [← hqe], Or.inr (by rw [← hqe] at *; exact hq)⟩
  · simp only at hp
    rw [assignId_edges] at hp
    rcases List.mem_append.mp hp with hp1 | hp1
    · exact Or.inl hp1
    · obtain ⟨q, hq, hqe⟩ := List.mem_map.mp hp1
      exact Or.inr ⟨by rw [← hqe], Or.inl (by rw [← hqe] at *; exact hq)⟩

mutual

theorem importEntry_extends (gen : Nat → String) (strat : Strategy) (d : Decl)
    (isLast : Bool) (a : Acc) :
    (∀ p ∈ a.st.edges, p ∈ (importEntry gen strat d isLast a).st.edges)
    ∧ (∀ n ∈ a.st.nodes, n ∈ (importEntry gen strat d isLast a).st.nodes) := by
  cases d with
  | playbook i path =>
    constructor
    · intro p hp
      show p ∈ (entryStart gen strat (.playbook i path) a).st.edges
      exact entryStart_edges_mem gen strat _ a p hp
    · intro n hn
      show n ∈ (entryStart gen strat (.playbook i path) a).st.nodes ++ _
      refine List.mem_append_left _ ?_
      rw [entryStart_nodes]
      exact hn
  | block i bs children =>
    have hsub := importListAux_extends gen (bs.getD .parallel) children
      ⟨[(assignId gen (Decl.block i bs children) a.st).1], [],
        (entryStart gen strat (.block i bs children) a).st⟩
    constructor
    · intro p hp
      show p ∈ (importListAux gen (bs.getD .parallel) children
        ⟨[(assignId gen (Decl.block i bs children) a.st).1], [],
          (entryStart gen strat (.block i bs children) a).st⟩).st.edges
      exact hsub.1 p (entryStart_edges_mem gen strat _ a p hp)
    · intro n hn
      show n ∈ (importListAux gen (bs.getD .parallel) children
        ⟨[(assignId gen (Decl.block i bs children) a.st).1], [],
          (entryStart gen strat (.block i bs children) a).st⟩).st.nodes ++ _
      refine List.mem_append_left _ (hsub.2 n ?_)
      rw [entryStart_nodes]
      exact hn
termination_by sizeOf d

theorem importListAux_extends (gen : Nat → String) (strat : Strategy)
    (ds : List Decl) (a : Acc) :
    (∀ p ∈ a.st.edges, p ∈ (importListAux gen strat ds a).st.edges)
    ∧ (∀ n ∈ a.st.nodes, n ∈ (importListAux gen strat ds a).st.nodes) := by
  cases ds with
  | nil => exact ⟨fun p hp => hp, fun n hn => hn⟩
  | cons d rest =>
    have h1 := importEntry_extends gen strat d rest.isEmpty a
    have h2 := importListAux_extends gen strat rest
      (importEntry gen strat d rest.isEmpty a)
    exact ⟨fun p hp => h2.1 p (h1.1 p hp), fun n hn => h2.2 n (h1.2 n hn)⟩
termination_by sizeOf ds

end

theorem importEntry_parent_edge (gen : Nat → String) (strat : Strategy)
    (d : Decl) (isLast : Bool) (a : Acc) (x : String) (hx : x ∈ a.parents) :
    (x, (assignId gen d a.st).1) ∈ (importEntry gen strat d isLast a).st.edges := by
  cases d with
  | playbook i path =>
    show _ ∈ (entryStart gen strat (.playbook i path) a).st.edges
    exact entryStart_parent_edge gen strat _ a x hx
  | block i bs children =>
    show _ ∈ (importListAux gen (bs.getD .parallel) children
      ⟨[(assignId gen (Decl.block i bs children) a.st).1], [],
        (entryStart gen strat (.block i bs children) a).st⟩).st.edges
    exact (importListAux_extends gen _ children _).1 _
      (entryStart_parent_edge gen strat _ a x hx)

theorem importEntry_zero_edge (gen : Nat → String) (d : Decl) (isLast : Bool)
    (a : Acc) (x : String) (hx : x ∈ a.zero) :
    (x, (assignId gen d a.st).1) ∈ (importEntry gen .serial d isLast a).st.edges := by
  cases d with
  | playbook i path =>
    show _ ∈ (entryStart gen .serial (.playbook i path) a).st.edges
    exact entryStart_zero_edge gen _ a x hx
  | block i bs children =>
    show _ ∈ (importListAux gen (bs.getD .parallel) children
      ⟨[(assignId gen (Decl.block i bs children) a.st).1], [],
        (entryStart gen .serial (.block i bs children) a).st⟩).st.edges
    exact (importListAux_extends gen _ children _).1 _
      (entryStart_zero_edge gen _ a x hx)

/-- C4: under the `serial` strategy, each entry receives an incoming edge
from every node of the frontier accumulated from the preceding sibling
(both the `parent_nodes` and the `zero_outdegree_nodes` carried into its
iteration — and after a non-last serial entry the latter is contained in
the former), these edges survive to the end of the compilation, so for
consecutive serial siblings `a, b` there is a directed path (in fact an
edge) from every frontier node of `a`'s subtree to `b`.  The frontier
exported by entry `a` — its new `parent_nodes` — is the node itself for a
playbook or an empty block, and the recursive `zero_outdegree` frontier of
the children for a non-empty block. -/
theorem c4_serial_composition (gen : Nat → String) (da db : Decl)
    (rest : List Decl) (a : Acc) :
    (∀ x ∈ (importEntry gen .serial da false a).parents ++
        (importEntry gen .serial da false a).zero,
      (x, (assignId gen db (importEntry gen .serial da false a).st).1)
          ∈ (importListAux gen .serial (da :: db :: rest) a).st.edges
      ∧ Path (importListAux gen .serial (da :: db :: rest) a).st.edges x
          (assignId gen db (importEntry gen .serial da false a).st).1)
    ∧ (∀ x ∈ (importEntry gen .serial da false a).zero,
        x ∈ (importEntry gen .serial da false a).parents)
    ∧ (∀ i p, da = .playbook i p →
        (importEntry gen .serial da false a).parents = [(assignId gen da a.st).1])
    ∧ (∀ i bs, da = .block i bs [] →
        (importEntry gen .serial da false a).parents = [(assignId gen da a.st).1])
    ∧ (∀ i bs ch, da = .block i bs ch → ch ≠ [] →
        (importEntry gen .serial da false a).parents
          = (importListAux gen (bs.getD .parallel) ch
              ⟨[(assignId gen da a.st).1], [],
                (entryStart gen .serial da a).st⟩).zero) := by
  refine ⟨?_, ?_, ?_, ?_, ?_⟩
  · intro x hx
    have hstep : importListAux gen .serial (da :: db :: rest) a
        = importListAux gen .serial rest
            (importEntry gen .serial db rest.isEmpty
              (importEntry gen .serial da false a)) := rfl
    have hedge : (x, (assignId gen db (importEntry gen .serial da false a).st).1)
        ∈ (importEntry gen .serial db rest.isEmpty
            (importEntry gen .serial da false a)).st.edges := by
      rcases List.mem_append.mp hx with hx1 | hx1
      · exact importEntry_parent_edge gen .serial db rest.isEmpty _ x hx1
      · exact importEntry_zero_edge gen db rest.isEmpty _ x hx1
    rw [hstep]
    have hfin := (importListAux_extends gen .serial rest _).1 _ hedge
    exact ⟨hfin, Path.single hfin⟩
  · intro x hx
    cases da with
    | playbook i p =>
      have hz : (importEntry gen .serial (.playbook i p) false a).zero
          = (entryStart gen .serial (.playbook i p) a).zero := by
        simp [importEntry]
      rw [hz, entryStart_zero] at hx
      simp at hx
    | block i bs children =>
      have hz : (importEntry gen .serial (.block i bs children) false a).zero
          = (importListAux gen (bs.getD .parallel) children
              ⟨[(assignId gen (Decl.block i bs children) a.st).1], [],
                (entryStart gen .serial (.block i bs children) a).st⟩).zero := by
        simp [importEntry, entryStart_zero]
      rw [hz] at hx
      by_cases hch : children.isEmpty
      · rw [List.isEmpty_iff] at hch
        subst hch
        simp only [importListAux] at hx
        simp at hx
      · have hp : (importEntry gen .serial (.block i bs children) false a).parents
            = (importListAux gen (bs.getD .parallel) children
              ⟨[(assignId gen (Decl.block i bs children) a.st).1], [],
                (entryStart gen .serial (.block i bs children) a).st⟩).zero := by
          simp [importEntry, hch]
        rw [hp]
        exact hx
  · intro i p hda
    subst hda
    rfl
  · intro i bs hda
    subst hda
    rfl
  · intro i bs ch hda hch
    subst hda
    simp [importEntry, List.isEmpty_iff, hch]

/-- Witness for C4: for `[block(parallel, [P1, P2]), P3]` compiled serially
after a parent frontier `["s"]`, both frontier nodes `P1` and `P2` of the
block's subtree get an edge to `P3`. -/
theorem c4_serial_composition_witness :
    ("P1" ∈ (importEntry (fun _ => "X") .serial
        (.block (some "B") (some .parallel)
          [.playbook (some "P1") "p", .playbook (some "P2") "p"]) false
        ⟨["s"], [], ⟨[], ["s"], 0⟩⟩).parents ++
        (importEntry (fun _ => "X") .serial
          (.block (some "B") (some .parallel)
            [.playbook (some "P1") "p", .playbook (some "P2") "p"]) false
          ⟨["s"], [], ⟨[], ["s"], 0⟩⟩).zero)
    ∧ ("P1", "P3") ∈ (importListAux (fun _ => "X") .serial
        [.block (some "B") (some .parallel)
          [.playbook (some "P1") "p", .playbook (some "P2") "p"],
         .playbook (some "P3") "p"]
        ⟨["s"], [], ⟨[], ["s"], 0⟩⟩).st.edges :=
  ⟨by decide,
   ((c4_serial_composition (fun _ => "X")
      (.block (some "B") (some .parallel)
        [.playbook (some "P1") "p", .playbook (some "P2") "p"])
      (.playbook (some "P3") "p") []
      ⟨["s"], [], ⟨[], ["s"], 0⟩⟩).1 "P1" (by decide)).1⟩

/-! ## C5 — sentinels, unique source and sink -/

mutual

/-- The explicitly declared ids of a declaration entry and its subtree. -/
def declaredIds : Decl → List String
  | .playbook i _ => i.toList
  | .block i _ ch => i.toList ++ declaredIdsList ch

def declaredIdsList : List Decl → List String
  | [] => []
  | d :: rest => declaredIds d ++ declaredIdsList rest

end

mutual

/-- No block anywhere in the entry has an empty child list. -/
def noEmptyBlock : Decl → Bool
  | .playbook _ _ => true
  | .block _ _ ch => !ch.isEmpty && noEmptyBlockList ch

def noEmptyBlockList : List Decl → Bool
  | [] => true
  | d :: rest => noEmptyBlock d && noEmptyBlockList rest

end

/-- The compiler loop restricted to entries that are not in last position
(used to split the top-level list before its final sentinel). -/
def importMid (gen : Nat → String) (strat : Strategy) (l : List Decl)
    (a : Acc) : Acc :=
  l.foldl (fun acc d => importEntry gen strat d false acc) a

theorem importListAux_append (gen : Nat → String) (strat : Strategy)
    (l1 l2 : List Decl) (a : Acc) (h : l2 ≠ []) :
    importListAux gen strat (l1 ++ l2) a
      = importListAux gen strat l2 (importMid gen strat l1 a) := by
  induction l1 generalizing a with
  | nil => rfl
  | cons d l1 ih =>
    have hne : (l1 ++ l2).isEmpty = false := by
      cases h2 : l1 ++ l2 with
      | nil => exact absurd (List.append_eq_nil.mp h2).2 h
      | cons _ _ => rfl
    show importListAux gen strat (l1 ++ l2)
        (importEntry gen strat d (l1 ++ l2).isEmpty a) = _
    rw [hne]
    exact ih (importEntry gen strat d false a)

theorem assignId_ne (gen : Nat → String) (d : Decl) (st : CompState)
    (bad : String) (hdecl : bad ∉ declaredIds d) (hgen : ∀ k, gen k ≠ bad) :
    (assignId gen d st).1 ≠ bad := by
  cases d with
  | playbook i path =>
    cases i with
    | none => exact hgen st.fresh
    | some i =>
      intro hc
      simp only [assignId] at hc
      exact hdecl (by simp [declaredIds, hc])
  | block i bs ch =>
    cases i with
    | none => exact hgen st.fresh
    | some i =>
      intro hc
      simp only [assignId] at hc
      exact hdecl (by simp [declaredIds, hc])

mutual

theorem importEntry_no_bad_target (gen : Nat → String) (strat : Strategy)
    (d : Decl) (isLast : Bool) (a : Acc) (bad : String)
    (hdecl : bad ∉ declaredIds d) (hgen : ∀ k, gen k ≠ bad)
    (ha : ∀ u, (u, bad) ∉ a.st.edges) :
    ∀ u, (u, bad) ∉ (importEntry gen strat d isLast a).st.edges := by
  have hnid : (assignId gen d a.st).1 ≠ bad := assignId_ne gen d a.st bad hdecl hgen
  have hstart : ∀ u, (u, bad) ∉ (entryStart gen strat d a).st.edges := by
    intro u hu
    rcases entryStart_edge_cases gen strat d a (u, bad) hu with hc | hc
    · exact ha u hc
    · exact hnid hc.1.symm
  cases d with
  | playbook i path =>
    intro u hu
    exact hstart u hu
  | block i bs children =>
    intro u hu
    have hch : bad ∉ declaredIdsList children := by
      intro hc
      exact hdecl (by simp [declaredIds, hc])
    exact importListAux_no_bad_target gen (bs.getD .parallel) children
      ⟨[(assignId gen (Decl.block i bs children) a.st).1], [],
        (entryStart gen strat (.block i bs children) a).st⟩ bad hch hgen hstart u hu
termination_by sizeOf d

theorem importListAux_no_bad_target (gen : Nat → String) (strat : Strategy)
    (ds : List Decl) (a : Acc) (bad : String)
    (hdecl : bad ∉ declaredIdsList ds) (hgen : ∀ k, gen k ≠ bad)
    (ha : ∀ u, (u, bad) ∉ a.st.edges) :
    ∀ u, (u, bad) ∉ (importListAux gen strat ds a).st.edges := by
  cases ds with
  | nil => exact ha
  | cons d rest =>
    have hd : bad ∉ declaredIds d := by
      intro hc
      exact hdecl (by simp [declaredIdsList, hc])
    have hr : bad ∉ declaredIdsList rest := by
      intro hc
      exact hdecl (by simp [declaredIdsList, hc])
    exact importListAux_no_bad_target gen strat rest
      (importEntry gen strat d rest.isEmpty a) bad hr hgen
      (importEntry_no_bad_target gen strat d rest.isEmpty a bad hd hgen ha)
termination_by sizeOf ds

end

theorem importMid_no_bad_target (gen : Nat → String) (strat : Strategy)
    (l : List Decl) (a : Acc) (bad : String)
    (hdecl : bad ∉ declaredIdsList l) (hgen : ∀ k, gen k ≠ bad)
    (ha : ∀ u, (u, bad) ∉ a.st.edges) :
    ∀ u, (u, bad) ∉ (importMid gen strat l a).st.edges := by
  induction l generalizing a with
  | nil => exact ha
  | cons d rest ih =>
    have hd : bad ∉ declaredIds d := by
      intro hc
      exact hdecl (by simp [declaredIdsList, hc])
    have hr : bad ∉ declaredIdsList rest := by
      intro hc
      exact hdecl (by simp [declaredIdsList, hc])
    exact ih (importEntry gen strat d false a) hr
      (importEntry_no_bad_target gen strat d false a bad hd hgen ha)

mutual

theorem importEntry_no_bad_source (gen : Nat → String) (strat : Strategy)
    (d : Decl) (isLast : Bool) (a : Acc) (bad : String)
    (hdecl : bad ∉ declaredIds d) (hgen : ∀ k, gen k ≠ bad)
    (hpar : bad ∉ a.parents) (hzero : bad ∉ a.zero)
    (ha : ∀ v, (bad, v) ∉ a.st.edges) :
    (∀ v, (bad, v) ∉ (importEntry gen strat d isLast a).st.edges)
    ∧ bad ∉ (importEntry gen strat d isLast a).parents
    ∧ bad ∉ (importEntry gen strat d isLast a).zero := by
  have hnid : (assignId gen d a.st).1 ≠ bad := assignId_ne gen d a.st bad hdecl hgen
  have hstart : ∀ v, (bad, v) ∉ (entryStart gen strat d a).st.edges := by
    intro v hv
    rcases entryStart_edge_cases gen strat d a (bad, v) hv with hc | hc
    · exact ha v hc
    · rcases hc.2 with hc2 | hc2
      · exact hpar hc2
      · exact hzero hc2
  have hbp : bad ∉ (entryStart gen strat d a).parents := by
    rw [entryStart_parents]
    split
    · simp
    · exact hpar
  have hbz : bad ∉ (entryStart gen strat d a).zero := by
    rw [entryStart_zero]
    split
    · simp
    · exact hzero
  cases d with
  | playbook i path =>
    refine ⟨hstart, ?_, ?_⟩
    · show bad ∉ (if strat = .serial then [(assignId gen (.playbook i path) a.st).1]
        else (entryStart gen strat (.playbook i path) a).parents)
      split
      · simp only [List.mem_singleton]
        intro hc
        exact hnid hc.symm
      · exact hbp
    · show bad ∉ (if strat = .parallel ∨ (strat = .serial ∧ isLast = true) then
          (entryStart gen strat (.playbook i path) a).zero
            ++ [(assignId gen (.playbook i path) a.st).1]
        else (entryStart gen strat (.playbook i path) a).zero)
      split
      · intro hc
        rcases List.mem_append.mp hc with hc2 | hc2
        · exact hbz hc2
        · exact hnid (List.mem_singleton.mp hc2).symm
      · exact hbz
  | block i bs children =>
    have hch : bad ∉ declaredIdsList children := by
      intro hc
      exact hdecl (by simp [declaredIds, hc])
    have hsubpar : bad ∉ [(assignId gen (Decl.block i bs children) a.st).1] := by
      simp only [List.mem_singleton]
      intro hc
      exact hnid hc.symm
    obtain ⟨hre, hrp, hrz⟩ := importListAux_no_bad_source gen (bs.getD .parallel)
      children ⟨[(assignId gen (Decl.block i bs children) a.st).1], [],
        (entryStart gen strat (.block i bs children) a).st⟩ bad hch hgen
      hsubpar (by simp) hstart
    refine ⟨hre, ?_, ?_⟩
    · show bad ∉ (if strat = .serial then
          (if children.isEmpty then [(assignId gen (Decl.block i bs children) a.st).1]
            else (importListAux gen (bs.getD .parallel) children
              ⟨[(assignId gen (Decl.block i bs children) a.st).1], [],
                (entryStart gen strat (.block i bs children) a).st⟩).zero)
        else (entryStart gen strat (.block i bs children) a).parents)
      split
      · split
        · exact hsubpar
        · exact hrz
      · exact hbp
    · show bad ∉ (entryStart gen strat (.block i bs children) a).zero
        ++ (importListAux gen (bs.getD .parallel) children
          ⟨[(assignId gen (Decl.block i bs children) a.st).1], [],
            (entryStart gen strat (.block i bs children) a).st⟩).zero
      intro hc
      rcases List.mem_append.mp hc with hc2 | hc2
      · exact hbz hc2
      · exact hrz hc2
termination_by sizeOf d

theorem importListAux_no_bad_source (gen : Nat → String) (strat : Strategy)
    (ds : List Decl) (a : Acc) (bad : String)
    (hdecl : bad ∉ declaredIdsList ds) (hgen : ∀ k, gen k ≠ bad)
    (hpar : bad ∉ a.parents) (hzero : bad ∉ a.zero)
    (ha : ∀ v, (bad, v) ∉ a.st.edges) :
    (∀ v, (bad, v) ∉ (importListAux gen strat ds a).st.edges)
    ∧ bad ∉ (importListAux gen strat ds a).parents
    ∧ bad ∉ (importListAux gen strat ds a).zero := by
  cases ds with
  | nil => exact ⟨ha, hpar, hzero⟩
  | cons d rest =>
    have hd : bad ∉ declaredIds d := by
      intro hc
      exact hdecl (by simp [declaredIdsList, hc])
    have hr : bad ∉ declaredIdsList rest := by
      intro hc
      exact hdecl (by simp [declaredIdsList, hc])
    obtain ⟨h1, h2, h3⟩ := importEntry_no_bad_source gen strat d rest.isEmpty a
      bad hd hgen hpar hzero ha
    exact importListAux_no_bad_source gen strat rest
      (importEntry gen strat d rest.isEmpty a) bad hr hgen h2 h3 h1
termination_by sizeOf ds

end

theorem importMid_no_bad_source (gen : Nat → String) (strat : Strategy)
    (l : List Decl) (a : Acc) (bad : String)
    (hdecl : bad ∉ declaredIdsList l) (hgen : ∀ k, gen k ≠ bad)
    (hpar : bad ∉ a.parents) (hzero : bad ∉ a.zero)
    (ha : ∀ v, (bad, v) ∉ a.st.edges) :
    (∀ v, (bad, v) ∉ (importMid gen strat l a).st.edges)
    ∧ bad ∉ (importMid gen strat l a).parents
    ∧ bad ∉ (importMid gen strat l a).zero := by
  induction l generalizing a with
  | nil => exact ⟨ha, hpar, hzero⟩
  | cons d rest ih =>
    have hd : bad ∉ declaredIds d := by
      intro hc
      exact hdecl (by simp [declaredIdsList, hc])
    have hr : bad ∉ declaredIdsList rest := by
      intro hc
      exact hdecl (by simp [declaredIdsList, hc])
    obtain ⟨h1, h2, h3⟩ := importEntry_no_bad_source gen strat d false a
      bad hd hgen hpar hzero ha
    exact ih (importEntry gen strat d false a) hr h2 h3 h1

mutual

theorem importEntry_frontier_ne (gen : Nat → String) (strat : Strategy)
    (d : Decl) (isLast : Bool) (a : Acc) (hne : noEmptyBlock d = true)
    (hcase : strat = .parallel ∨ isLast = true) :
    (importEntry gen strat d isLast a).zero ≠ [] := by
  cases d with
  | playbook i path =>
    have hcond : strat = .parallel ∨ (strat = .serial ∧ isLast = true) := by
      rcases hcase with hc | hc
      · exact Or.inl hc
      · cases strat with
        | serial => exact Or.inr ⟨rfl, hc⟩
        | parallel => exact Or.inl rfl
    show (if strat = .parallel ∨ (strat = .serial ∧ isLast = true) then
        (entryStart gen strat (.playbook i path) a).zero
          ++ [(assignId gen (.playbook i path) a.st).1]
      else (entryStart gen strat (.playbook i path) a).zero) ≠ []
    rw [if_pos hcond]
    simp
  | block i bs children =>
    have hch : children ≠ [] := by
      simp only [noEmptyBlock, Bool.and_eq_true, Bool.not_eq_true'] at hne
      intro hc
      subst hc
      simp at hne
    have hchne : noEmptyBlockList children = true := by
      simp only [noEmptyBlock, Bool.and_eq_true] at hne
      exact hne.2
    have hsub := importListAux_frontier_ne gen (bs.getD .parallel) children
      ⟨[(assignId gen (Decl.block i bs children) a.st).1], [],
        (entryStart gen strat (.block i bs children) a).st⟩ hchne hch
    show (entryStart gen strat (.block i bs children) a).zero
        ++ (importListAux gen (bs.getD .parallel) children
          ⟨[(assignId gen (Decl.block i bs children) a.st).1], [],
            (entryStart gen strat (.block i bs children) a).st⟩).zero ≠ []
    intro hc
    exact hsub (List.append_eq_nil.mp hc).2
termination_by sizeOf d

theorem importListAux_frontier_ne (gen : Nat → String) (strat : Strategy)
    (ds : List Decl) (a : Acc) (hne : noEmptyBlockList ds = true)
    (hds : ds ≠ []) : (importListAux gen strat ds a).zero ≠ [] := by
  cases ds with
  | nil => exact absurd rfl hds
  | cons d rest =>
    have hd : noEmptyBlock d = true := by
      simp only [noEmptyBlockList, Bool.and_eq_true] at hne
      exact hne.1
    have hr : noEmptyBlockList rest = true := by
      simp only [noEmptyBlockList, Bool.and_eq_true] at hne
      exact hne.2
    cases hrest : rest with
    | nil =>
      show (importListAux gen strat [] (importEntry gen strat d true a)).zero ≠ []
      exact importEntry_frontier_ne gen strat d true a hd (Or.inr rfl)
    | cons r2 rest2 =>
      show (importListAux gen strat (r2 :: rest2)
        (importEntry gen strat d (r2 :: rest2).isEmpty a)).zero ≠ []
      refine importListAux_frontier_ne gen strat (r2 :: rest2) _ ?_ (by simp)
      rw [← hrest]
      exact hr
termination_by sizeOf ds

end

/-- Under `serial`, the new `parent_nodes` after an entry with no empty
blocks are never empty. -/
theorem importEntry_serial_parents_ne (gen : Nat → String) (d : Decl)
    (isLast : Bool) (a : Acc) (hne : noEmptyBlock d = true) :
    (importEntry gen .serial d isLast a).parents ≠ [] := by
  cases d with
  | playbook i path =>
    show (if Strategy.serial = .serial then [(assignId gen (.playbook i path) a.st).1]
      else (entryStart gen .serial (.playbook i path) a).parents) ≠ []
    simp
  | block i bs children =>
    show (if Strategy.serial = .serial then
        (if children.isEmpty then [(assignId gen (Decl.block i bs children) a.st).1]
          else (importListAux gen (bs.getD .parallel) children
            ⟨[(assignId gen (Decl.block i bs children) a.st).1], [],
              (entryStart gen .serial (.block i bs children) a).st⟩).zero)
      else (entryStart gen .serial (.block i bs children) a).parents) ≠ []
    rw [if_pos rfl]
    split
    · simp
    · next hch =>
      have hch2 : children ≠ [] := by
        intro hc
        subst hc
        exact hch rfl
      have hchne : noEmptyBlockList children = true := by
        simp only [noEmptyBlock, Bool.and_eq_true] at hne
        exact hne.2
      exact importListAux_frontier_ne gen (bs.getD .parallel) children _ hchne hch2

/-- At the end of a `serial` list with no empty blocks, the exported
`parent_nodes` are contained in the exported frontier. -/
theorem importListAux_serial_end (gen : Nat → String) (ds : List Decl) (a : Acc)
    (hne : noEmptyBlockList ds = true) (hds : ds ≠ []) :
    ∀ x ∈ (importListAux gen .serial ds a).parents,
      x ∈ (importListAux gen .serial ds a).zero := by
  induction ds generalizing a with
  | nil => exact absurd rfl hds
  | cons d rest ih =>
    have hd : noEmptyBlock d = true := by
      simp only [noEmptyBlockList, Bool.and_eq_true] at hne
      exact hne.1
    have hr : noEmptyBlockList rest = true := by
      simp only [noEmptyBlockList, Bool.and_eq_true] at hne
      exact hne.2
    cases hrest : rest with
    | nil =>
      intro x hx
      show x ∈ (importListAux gen .serial [] (importEntry gen .serial d true a)).zero
      have hx2 : x ∈ (importEntry gen .serial d true a).parents := hx
      cases d with
      | playbook i path =>
        have hp : (importEntry gen .serial (.playbook i path) true a).parents
            = [(assignId gen (.playbook i path) a.st).1] := by
          simp [importEntry]
        rw [hp] at hx2
        show x ∈ (if Strategy.serial = .parallel ∨ (Strategy.serial = .serial ∧ True) then
            (entryStart gen .serial (.playbook i path) a).zero
              ++ [(assignId gen (.playbook i path) a.st).1]
          else (entryStart gen .serial (.playbook i path) a).zero)
        rw [if_pos (Or.inr ⟨rfl, trivial⟩)]
        exact List.mem_append_right _ hx2
      | block i bs children =>
        have hch : children ≠ [] := by
          simp only [noEmptyBlock, Bool.and_eq_true, Bool.not_eq_true'] at hd
          intro hc
          subst hc
          simp at hd
        have hp : (importEntry gen .serial (.block i bs children) true a).parents
            = (importListAux gen (bs.getD .parallel) children
              ⟨[(assignId gen (Decl.block i bs children) a.st).1], [],
                (entryStart gen .serial (.block i bs children) a).st⟩).zero := by
          simp [importEntry, List.isEmpty_iff, hch]
        rw [hp] at hx2
        show x ∈ (entryStart gen .serial (.block i bs children) a).zero
          ++ (importListAux gen (bs.getD .parallel) children
            ⟨[(assignId gen (Decl.block i bs children) a.st).1], [],
              (entryStart gen .serial (.block i bs children) a).st⟩).zero
        exact List.mem_append_right _ hx2
    | cons r2 rest2 =>
      subst hrest
      intro x hx
      exact ih (importEntry gen .serial d (r2 :: rest2).isEmpty a) hr (by simp) x hx

theorem importEntry_parallel_parents (gen : Nat → String) (d : Decl)
    (isLast : Bool) (a : Acc) :
    (importEntry gen .parallel d isLast a).parents = a.parents := by
  cases d with
  | playbook i path => simp [importEntry, entryStart_parents]
  | block i bs children => simp [importEntry, entryStart_parents]

/-- The incoming frontier is non-empty: under `serial` the union of
`parent_nodes` and `zero_outdegree_nodes`, under `parallel` the
`parent_nodes`. -/
def FrontHyp (strat : Strategy) (a : Acc) : Prop :=
  (strat = .serial → a.parents ++ a.zero ≠ []) ∧ (strat = .parallel → a.parents ≠ [])

theorem entryStart_nid_inedge (gen : Nat → String) (strat : Strategy) (d : Decl)
    (a : Acc) (hf : FrontHyp strat a) :
    ∃ u, (u, (assignId gen d a.st).1) ∈ (entryStart gen strat d a).st.edges := by
  cases strat with
  | serial =>
    have h := hf.1 rfl
    rcases List.exists_mem_of_ne_nil _ h with ⟨q, hq⟩
    rcases List.mem_append.mp hq with hq | hq
    · exact ⟨q, entryStart_parent_edge gen .serial d a q hq⟩
    · exact ⟨q, entryStart_zero_edge gen d a q hq⟩
  | parallel =>
    have h := hf.2 rfl
    rcases List.exists_mem_of_ne_nil _ h with ⟨q, hq⟩
    exact ⟨q, entryStart_parent_edge gen .parallel d a q hq⟩

mutual

theorem importEntry_indeg (gen : Nat → String) (strat : Strategy) (d : Decl)
    (isLast : Bool) (a : Acc) (hne : noEmptyBlock d = true)
    (hf : FrontHyp strat a) :
    ∀ x ∈ (importEntry gen strat d isLast a).st.nodes,
      x ∈ a.st.nodes ∨ ∃ u, (u, x) ∈ (importEntry gen strat d isLast a).st.edges := by
  cases d with
  | playbook i path =>
    intro x hx
    have hx2 : x ∈ a.st.nodes ∨ x = (assignId gen (.playbook i path) a.st).1 := by
      have : x ∈ (entryStart gen strat (.playbook i path) a).st.nodes
          ++ [(assignId gen (.playbook i path) a.st).1] := hx
      rw [entryStart_nodes] at this
      rcases List.mem_append.mp this with h | h
      · exact Or.inl h
      · exact Or.inr (List.mem_singleton.mp h)
    rcases hx2 with h | h
    · exact Or.inl h
    · subst h
      rcases entryStart_nid_inedge gen strat (.playbook i path) a hf with ⟨u, hu⟩
      exact Or.inr ⟨u, hu⟩
  | block i bs children =>
    intro x hx
    have hch : noEmptyBlockList children = true := by
      simp only [noEmptyBlock, Bool.and_eq_true] at hne
      exact hne.2
    have hx2 : x ∈ (importListAux gen (bs.getD .parallel) children
        ⟨[(assignId gen (Decl.block i bs children) a.st).1], [],
          (entryStart gen strat (.block i bs children) a).st⟩).st.nodes
        ∨ x = (assignId gen (Decl.block i bs children) a.st).1 := by
      have : x ∈ (importListAux gen (bs.getD .parallel) children
          ⟨[(assignId gen (Decl.block i bs children) a.st).1], [],
            (entryStart gen strat (.block i bs children) a).st⟩).st.nodes
          ++ [(assignId gen (Decl.block i bs children) a.st).1] := hx
      rcases List.mem_append.mp this with h | h
      · exact Or.inl h
      · exact Or.inr (List.mem_singleton.mp h)
    rcases hx2 with h | h
    · have hsub := importListAux_indeg gen (bs.getD .parallel) children
        ⟨[(assignId gen (Decl.block i bs children) a.st).1], [],
          (entryStart gen strat (.block i bs children) a).st⟩ hch
        ⟨fun _ => by simp, fun _ => by simp⟩ x h
      rcases hsub with h2 | ⟨u, hu⟩
      · rw [entryStart_nodes] at h2
        exact Or.inl h2
      · exact Or.inr ⟨u, hu⟩
    · subst h
      rcases entryStart_nid_inedge gen strat (.block i bs children) a hf with ⟨u, hu⟩
      exact Or.inr ⟨u, (importListAux_extends gen (bs.getD .parallel) children
        ⟨[(assignId gen (Decl.block i bs children) a.st).1], [],
          (entryStart gen strat (.block i bs children) a).st⟩).1 _ hu⟩
termination_by sizeOf d

theorem importListAux_indeg (gen : Nat → String) (strat : Strategy)
    (ds : List Decl) (a : Acc) (hne : noEmptyBlockList ds = true)
    (hf : FrontHyp strat a) :
    ∀ x ∈ (importListAux gen strat ds a).st.nodes,
      x ∈ a.st.nodes ∨ ∃ u, (u, x) ∈ (importListAux gen strat ds a).st.edges := by
  cases ds with
  | nil => exact fun x hx => Or.inl hx
  | cons d rest =>
    have hd : noEmptyBlock d = true := by
      simp only [noEmptyBlockList, Bool.and_eq_true] at hne
      exact hne.1
    have hr : noEmptyBlockList rest = true := by
      simp only [noEmptyBlockList, Bool.and_eq_true] at hne
      exact hne.2
    have hf2 : FrontHyp strat (importEntry gen strat d rest.isEmpty a) := by
      constructor
      · intro hs
        subst hs
        intro hc
        exact importEntry_serial_parents_ne gen d rest.isEmpty a hd
          (List.append_eq_nil.mp hc).1
      · intro hs
        subst hs
        rw [importEntry_parallel_parents]
        exact hf.2 rfl
    intro x hx
    rcases importListAux_indeg gen strat rest
      (importEntry gen strat d rest.isEmpty a) hr hf2 x hx with h | ⟨u, hu⟩
    · rcases importEntry_indeg gen strat d rest.isEmpty a hd hf x h with h2 | ⟨u, hu⟩
      · exact Or.inl h2
      · exact Or.inr ⟨u, (importListAux_extends gen strat rest
          (importEntry gen strat d rest.isEmpty a)).1 _ hu⟩
    · exact Or.inr ⟨u, hu⟩
termination_by sizeOf ds

end

theorem importMid_extends_edges (gen : Nat → String) (strat : Strategy)
    (l : List Decl) : ∀ (a : Acc) (p : String × String), p ∈ a.st.edges →
      p ∈ (importMid gen strat l a).st.edges := by
  induction l with
  | nil => exact fun a p hp => hp
  | cons d rest ih =>
    intro a p hp
    exact ih (importEntry gen strat d false a) p
      ((importEntry_extends gen strat d false a).1 p hp)

theorem importMid_extends_nodes (gen : Nat → String) (strat : Strategy)
    (l : List Decl) : ∀ (a : Acc) (n : String), n ∈ a.st.nodes →
      n ∈ (importMid gen strat l a).st.nodes := by
  induction l with
  | nil => exact fun a n hn => hn
  | cons d rest ih =>
    intro a n hn
    exact ih (importEntry gen strat d false a) n
      ((importEntry_extends gen strat d false a).2 n hn)

theorem importMid_indeg (gen : Nat → String) (l : List Decl) (a : Acc)
    (hne : noEmptyBlockList l = true) (hf : FrontHyp .serial a) :
    ∀ x ∈ (importMid gen .serial l a).st.nodes,
      x ∈ a.st.nodes ∨ ∃ u, (u, x) ∈ (importMid gen .serial l a).st.edges := by
  induction l generalizing a with
  | nil => exact fun x hx => Or.inl hx
  | cons d rest ih =>
    have hd : noEmptyBlock d = true := by
      simp only [noEmptyBlockList, Bool.and_eq_true] at hne
      exact hne.1
    have hr : noEmptyBlockList rest = true := by
      simp only [noEmptyBlockList, Bool.and_eq_true] at hne
      exact hne.2
    have hf2 : FrontHyp .serial (importEntry gen .serial d false a) := by
      constructor
      · intro _
        intro hc
        exact importEntry_serial_parents_ne gen d false a hd
          (List.append_eq_nil.mp hc).1
      · intro hs
        cases hs
    intro x hx
    rcases ih (importEntry gen .serial d false a) hr hf2 x hx with h | ⟨u, hu⟩
    · rcases importEntry_indeg gen .serial d false a hd hf x h with h2 | ⟨u, hu⟩
      · exact Or.inl h2
      · exact Or.inr ⟨u, importMid_extends_edges gen .serial rest _ _ hu⟩
    · exact Or.inr ⟨u, hu⟩

theorem importListAux_parents_outedge (gen : Nat → String) (strat : Strategy)
    (ds : List Decl) (a : Acc) (hds : ds ≠ []) :
    ∀ q ∈ a.parents, ∃ v, (q, v) ∈ (importListAux gen strat ds a).st.edges := by
  cases ds with
  | nil => exact absurd rfl hds
  | cons d rest =>
    intro q hq
    exact ⟨(assignId gen d a.st).1,
      (importListAux_extends gen strat rest (importEntry gen strat d rest.isEmpty a)).1
        _ (importEntry_parent_edge gen strat d rest.isEmpty a q hq)⟩

theorem importListAux_zero_outedge (gen : Nat → String) (ds : List Decl)
    (a : Acc) (hds : ds ≠ []) :
    ∀ q ∈ a.zero, ∃ v, (q, v) ∈ (importListAux gen .serial ds a).st.edges := by
  cases ds with
  | nil => exact absurd rfl hds
  | cons d rest =>
    intro q hq
    exact ⟨(assignId gen d a.st).1,
      (importListAux_extends gen .serial rest
        (importEntry gen .serial d rest.isEmpty a)).1
        _ (importEntry_zero_edge gen d rest.isEmpty a q hq)⟩

theorem importMid_parents_outedge (gen : Nat → String) (strat : Strategy)
    (l : List Decl) (a : Acc) (hl : l ≠ []) :
    ∀ q ∈ a.parents, ∃ v, (q, v) ∈ (importMid gen strat l a).st.edges := by
  cases l with
  | nil => exact absurd rfl hl
  | cons d rest =>
    intro q hq
    exact ⟨(assignId gen d a.st).1,
      importMid_extends_edges gen strat rest (importEntry gen strat d false a)
        _ (importEntry_parent_edge gen strat d false a q hq)⟩

theorem importMid_zero_outedge (gen : Nat → String) (l : List Decl)
    (a : Acc) (hl : l ≠ []) :
    ∀ q ∈ a.zero, ∃ v, (q, v) ∈ (importMid gen .serial l a).st.edges := by
  cases l with
  | nil => exact absurd rfl hl
  | cons d rest =>
    intro q hq
    exact ⟨(assignId gen d a.st).1,
      importMid_extends_edges gen .serial rest (importEntry gen .serial d false a)
        _ (importEntry_zero_edge gen d false a q hq)⟩

theorem importEntry_parallel_zero_sup (gen : Nat → String) (d : Decl)
    (isLast : Bool) (a : Acc) :
    ∀ x ∈ a.zero, x ∈ (importEntry gen .parallel d isLast a).zero := by
  cases d with
  | playbook i path =>
    intro x hx
    show x ∈ (if Strategy.parallel = .parallel ∨ (Strategy.parallel = .serial ∧ isLast = true) then
        (entryStart gen .parallel (.playbook i path) a).zero
          ++ [(assignId gen (.playbook i path) a.st).1]
      else (entryStart gen .parallel (.playbook i path) a).zero)
    rw [if_pos (Or.inl rfl)]
    refine List.mem_append_left _ ?_
    rw [entryStart_zero]
    simpa using hx
  | block i bs children =>
    intro x hx
    show x ∈ (entryStart gen .parallel (.block i bs children) a).zero ++ _
    refine List.mem_append_left _ ?_
    rw [entryStart_zero]
    simpa using hx

theorem importListAux_parallel_zero_sup (gen : Nat → String) (ds : List Decl)
    (a : Acc) : ∀ x ∈ a.zero, x ∈ (importListAux gen .parallel ds a).zero := by
  induction ds generalizing a with
  | nil => exact fun x hx => hx
  | cons d rest ih =>
    intro x hx
    exact ih (importEntry gen .parallel d rest.isEmpty a) x
      (importEntry_parallel_zero_sup gen d rest.isEmpty a x hx)

mutual

theorem importEntry_outdeg (gen : Nat → String) (strat : Strategy) (d : Decl)
    (isLast : Bool) (a : Acc) (hne : noEmptyBlock d = true) :
    ∀ x ∈ (importEntry gen strat d isLast a).st.nodes,
      x ∈ a.st.nodes
      ∨ (∃ v, (x, v) ∈ (importEntry gen strat d isLast a).st.edges)
      ∨ x ∈ (importEntry gen strat d isLast a).zero
      ∨ (strat = .serial ∧ x ∈ (importEntry gen strat d isLast a).parents) := by
  cases d with
  | playbook i path =>
    intro x hx
    have hx2 : x ∈ a.st.nodes ∨ x = (assignId gen (.playbook i path) a.st).1 := by
      have : x ∈ (entryStart gen strat (.playbook i path) a).st.nodes
          ++ [(assignId gen (.playbook i path) a.st).1] := hx
      rw [entryStart_nodes] at this
      rcases List.mem_append.mp this with h | h
      · exact Or.inl h
      · exact Or.inr (List.mem_singleton.mp h)
    rcases hx2 with h | h
    · exact Or.inl h
    · subst h
      cases strat with
      | serial =>
        refine Or.inr (Or.inr (Or.inr ⟨rfl, ?_⟩))
        show _ ∈ (if Strategy.serial = .serial then [(assignId gen (.playbook i path) a.st).1]
          else (entryStart gen .serial (.playbook i path) a).parents)
        rw [if_pos rfl]
        exact List.mem_singleton.mpr rfl
      | parallel =>
        refine Or.inr (Or.inr (Or.inl ?_))
        show _ ∈ (if Strategy.parallel = .parallel ∨ (Strategy.parallel = .serial ∧ isLast = true) then
            (entryStart gen .parallel (.playbook i path) a).zero
              ++ [(assignId gen (.playbook i path) a.st).1]
          else (entryStart gen .parallel (.playbook i path) a).zero)
        rw [if_pos (Or.inl rfl)]
        exact List.mem_append_right _ (List.mem_singleton.mpr rfl)
  | block i bs children =>
    intro x hx
    have hch : children ≠ [] := by
      simp only [noEmptyBlock, Bool.and_eq_true, Bool.not_eq_true'] at hne
      intro hc
      subst hc
      simp at hne
    have hchne : noEmptyBlockList children = true := by
      simp only [noEmptyBlock, Bool.and_eq_true] at hne
      exact hne.2
    have hx2 : x ∈ (importListAux gen (bs.getD .parallel) children
        ⟨[(assignId gen (Decl.block i bs children) a.st).1], [],
          (entryStart gen strat (.block i bs children) a).st⟩).st.nodes
        ∨ x = (assignId gen (Decl.block i bs children) a.st).1 := by
      have : x ∈ (importListAux gen (bs.getD .parallel) children
          ⟨[(assignId gen (Decl.block i bs children) a.st).1], [],
            (entryStart gen strat (.block i bs children) a).st⟩).st.nodes
          ++ [(assignId gen (Decl.block i bs children) a.st).1] := hx
      rcases List.mem_append.mp this with h | h
      · exact Or.inl h
      · exact Or.inr (List.mem_singleton.mp h)
    rcases hx2 with h | h
    · rcases importListAux_outdeg gen (bs.getD .parallel) children
        ⟨[(assignId gen (Decl.block i bs children) a.st).1], [],
          (entryStart gen strat (.block i bs children) a).st⟩ hchne x h with
        h2 | ⟨v, hv⟩ | h2 | ⟨hser, h2⟩
      · rw [entryStart_nodes] at h2
        exact Or.inl h2
      · exact Or.inr (Or.inl ⟨v, hv⟩)
      · refine Or.inr (Or.inr (Or.inl ?_))
        show x ∈ (entryStart gen strat (.block i bs children) a).zero ++ _
        exact List.mem_append_right _ h2
      · refine Or.inr (Or.inr (Or.inl ?_))
        show x ∈ (entryStart gen strat (.block i bs children) a).zero
          ++ (importListAux gen (bs.getD .parallel) children
            ⟨[(assignId gen (Decl.block i bs children) a.st).1], [],
              (entryStart gen strat (.block i bs children) a).st⟩).zero
        refine List.mem_append_right _ ?_
        rw [hser] at h2 ⊢
        exact importListAux_serial_end gen children
          ⟨[(assignId gen (Decl.block i bs children) a.st).1], [],
            (entryStart gen strat (.block i bs children) a).st⟩ hchne hch x h2
    · subst h
      refine Or.inr (Or.inl ?_)
      exact importListAux_parents_outedge gen (bs.getD .parallel) children
        ⟨[(assignId gen (Decl.block i bs children) a.st).1], [],
          (entryStart gen strat (.block i bs children) a).st⟩ hch _
        (List.mem_singleton.mpr rfl)
termination_by sizeOf d

theorem importListAux_outdeg (gen : Nat → String) (strat : Strategy)
    (ds : List Decl) (a : Acc) (hne : noEmptyBlockList ds = true) :
    ∀ x ∈ (importListAux gen strat ds a).st.nodes,
      x ∈ a.st.nodes
      ∨ (∃ v, (x, v) ∈ (importListAux gen strat ds a).st.edges)
      ∨ x ∈ (importListAux gen strat ds a).zero
      ∨ (strat = .serial ∧ x ∈ (importListAux gen strat ds a).parents) := by
  cases ds with
  | nil => exact fun x hx => Or.inl hx
  | cons d rest =>
    have hd : noEmptyBlock d = true := by
      simp only [noEmptyBlockList, Bool.and_eq_true] at hne
      exact hne.1
    have hr : noEmptyBlockList rest = true := by
      simp only [noEmptyBlockList, Bool.and_eq_true] at hne
      exact hne.2
    cases rest with
    | nil =>
      intro x hx
      exact importEntry_outdeg gen strat d true a hd x hx
    | cons r2 rest2 =>
      intro x hx
      have hrne : (r2 :: rest2) ≠ [] := by simp
      have hx2 : x ∈ (importListAux gen strat (r2 :: rest2)
          (importEntry gen strat d false a)).st.nodes := hx
      rcases importListAux_outdeg gen strat (r2 :: rest2)
        (importEntry gen strat d false a) hr x hx2 with
        h | ⟨v, hv⟩ | h | ⟨hser, h⟩
      · rcases importEntry_outdeg gen strat d false a hd x h with
          h2 | ⟨v, hv⟩ | h2 | ⟨hser, h2⟩
        · exact Or.inl h2
        · exact Or.inr (Or.inl ⟨v, (importListAux_extends gen strat (r2 :: rest2)
            (importEntry gen strat d false a)).1 _ hv⟩)
        · cases strat with
          | serial =>
            exact Or.inr (Or.inl (importListAux_zero_outedge gen (r2 :: rest2)
              (importEntry gen .serial d false a) hrne x h2))
          | parallel =>
            exact Or.inr (Or.inr (Or.inl (importListAux_parallel_zero_sup gen
              (r2 :: rest2) (importEntry gen .parallel d false a) x h2)))
        · subst hser
          exact Or.inr (Or.inl (importListAux_parents_outedge gen .serial
            (r2 :: rest2) (importEntry gen .serial d false a) hrne x h2))
      · exact Or.inr (Or.inl ⟨v, hv⟩)
      · exact Or.inr (Or.inr (Or.inl h))
      · exact Or.inr (Or.inr (Or.inr ⟨hser, h⟩))
termination_by sizeOf ds

end

theorem importMid_outdeg (gen : Nat → String) (l : List Decl) (a : Acc)
    (hne : noEmptyBlockList l = true) :
    ∀ x ∈ (importMid gen .serial l a).st.nodes,
      x ∈ a.st.nodes
      ∨ (∃ v, (x, v) ∈ (importMid gen .serial l a).st.edges)
      ∨ x ∈ (importMid gen .serial l a).zero
      ∨ x ∈ (importMid gen .serial l a).parents := by
  induction l generalizing a with
  | nil => exact fun x hx => Or.inl hx
  | cons d rest ih =>
    have hd : noEmptyBlock d = true := by
      simp only [noEmptyBlockList, Bool.and_eq_true] at hne
      exact hne.1
    have hr : noEmptyBlockList rest = true := by
      simp only [noEmptyBlockList, Bool.and_eq_true] at hne
      exact hne.2
    intro x hx
    have hx2 : x ∈ (importMid gen .serial rest
        (importEntry gen .serial d false a)).st.nodes := hx
    rcases ih (importEntry gen .serial d false a) hr x hx2 with
      h | ⟨v, hv⟩ | h | h
    · rcases importEntry_outdeg gen .serial d false a hd x h with
        h2 | ⟨v, hv⟩ | h2 | ⟨_, h2⟩
      · exact Or.inl h2
      · exact Or.inr (Or.inl ⟨v, importMid_extends_edges gen .serial rest _ _ hv⟩)
      · cases rest with
        | nil => exact Or.inr (Or.inr (Or.inl h2))
        | cons r2 rest2 =>
          exact Or.inr (Or.inl (importMid_zero_outedge gen (r2 :: rest2)
            (importEntry gen .serial d false a) (by simp) x h2))
      · cases rest with
        | nil => exact Or.inr (Or.inr (Or.inr h2))
        | cons r2 rest2 =>
          exact Or.inr (Or.inl (importMid_parents_outedge gen .serial (r2 :: rest2)
            (importEntry gen .serial d false a) (by simp) x h2))
    · exact Or.inr (Or.inl ⟨v, hv⟩)
    · exact Or.inr (Or.inr (Or.inl h))
    · exact Or.inr (Or.inr (Or.inr h))

theorem importMid_serial_parents_ne (gen : Nat → String) (l : List Decl)
    (a : Acc) (hne : noEmptyBlockList l = true) (ha : a.parents ≠ []) :
    (importMid gen .serial l a).parents ≠ [] := by
  induction l generalizing a with
  | nil => exact ha
  | cons d rest ih =>
    have hd : noEmptyBlock d = true := by
      simp only [noEmptyBlockList, Bool.and_eq_true] at hne
      exact hne.1
    have hr : noEmptyBlockList rest = true := by
      simp only [noEmptyBlockList, Bool.and_eq_true] at hne
      exact hne.2
    exact ih (importEntry gen .serial d false a) hr
      (importEntry_serial_parents_ne gen d false a hd)

theorem importEntry_nid_mem (gen : Nat → String) (strat : Strategy) (d : Decl)
    (isLast : Bool) (a : Acc) :
    (assignId gen d a.st).1 ∈ (importEntry gen strat d isLast a).st.nodes := by
  cases d with
  | playbook i path =>
    show _ ∈ (entryStart gen strat (.playbook i path) a).st.nodes ++ _
    exact List.mem_append_right _ (List.mem_singleton.mpr rfl)
  | block i bs children =>
    show _ ∈ (importListAux gen (bs.getD .parallel) children
      ⟨[(assignId gen (Decl.block i bs children) a.st).1], [],
        (entryStart gen strat (.block i bs children) a).st⟩).st.nodes ++ _
    exact List.mem_append_right _ (List.mem_singleton.mpr rfl)

/-- The shape of a sentinel entry (`dict(id=i, block=[])`) compiled under
`serial`: it attaches edges from the whole incoming frontier to `i`, adds
the node `i`, exports `parent_nodes = [i]` and an empty frontier. -/
theorem importEntry_sentinel (gen : Nat → String) (i : String) (isLast : Bool)
    (a : Acc) :
    importEntry gen .serial (sentinel i) isLast a
      = ⟨[i], [],
         ⟨a.st.edges ++ a.parents.map (fun q => (q, i)) ++ a.zero.map (fun z => (z, i)),
          a.st.nodes ++ [i], a.st.fresh⟩⟩ := rfl

theorem appends_sentinel_isEmpty (ds : List Decl) (i : String) :
    (ds ++ [sentinel i]).isEmpty = false := by
  cases ds <;> rfl

theorem compileWorkflow_split (gen : Nat → String) (ds : List Decl) :
    (compileWorkflow gen ds).1
      = (importEntry gen .serial (sentinel "e") true
          (importMid gen .serial ds ⟨["s"], [], ⟨[], ["s"], 0⟩⟩)).st := by
  show (importListAux gen .serial (sentinel "s" :: (ds ++ [sentinel "e"]))
      ⟨[], [], ⟨[], [], 0⟩⟩).st = _
  have h1 : importListAux gen .serial (sentinel "s" :: (ds ++ [sentinel "e"]))
      ⟨[], [], ⟨[], [], 0⟩⟩
      = importListAux gen .serial (ds ++ [sentinel "e"])
          (importEntry gen .serial (sentinel "s") false ⟨[], [], ⟨[], [], 0⟩⟩) := by
    show importListAux gen .serial (ds ++ [sentinel "e"])
        (importEntry gen .serial (sentinel "s") (ds ++ [sentinel "e"]).isEmpty
          ⟨[], [], ⟨[], [], 0⟩⟩) = _
    rw [appends_sentinel_isEmpty]
  have h2 : importEntry gen .serial (sentinel "s") false ⟨[], [], ⟨[], [], 0⟩⟩
      = (⟨["s"], [], ⟨[], ["s"], 0⟩⟩ : Acc) := rfl
  rw [h1, h2, importListAux_append gen .serial ds [sentinel "e"] _ (by simp)]
  rfl

theorem importMid_parents_consumed (gen : Nat → String) (l : List Decl)
    (a : Acc) : ∀ q ∈ a.parents,
      (∃ v, (q, v) ∈ (importMid gen .serial l a).st.edges)
      ∨ q ∈ (importMid gen .serial l a).parents := by
  cases l with
  | nil => exact fun q hq => Or.inr hq
  | cons d rest =>
    intro q hq
    exact Or.inl (importMid_parents_outedge gen .serial (d :: rest) a
      (by simp) q hq)

/-- C5 counterexample: the claim names the sentinels `_s`/`_e` and asserts
a unique source and sink — but the compiler of
`ansible-workflow/workflow.py` inserts `dict(id='s', block=[])` and
`dict(id='e', block=[])` (no underscores), and for the declaration
`[block(serial, [P1, block(B2, [])])]` the compiled graph has no node
`_s`, no edge into `e` (a second source) and no edge out of `B2` (a second
sink). -/
theorem c5_counterexample :
    ("_s" ∉ (compileWorkflow (fun _ => "X")
        [.block (some "B1") (some .serial)
          [.playbook (some "P1") "p", .block (some "B2") none []]]).1.nodes)
    ∧ ("_e" ∉ (compileWorkflow (fun _ => "X")
        [.block (some "B1") (some .serial)
          [.playbook (some "P1") "p", .block (some "B2") none []]]).1.nodes)
    ∧ "e" ∈ (compileWorkflow (fun _ => "X")
        [.block (some "B1") (some .serial)
          [.playbook (some "P1") "p", .block (some "B2") none []]]).1.nodes
    ∧ ((compileWorkflow (fun _ => "X")
        [.block (some "B1") (some .serial)
          [.playbook (some "P1") "p", .block (some "B2") none []]]).1.edges.filter
        (fun p => p.2 = "e")) = []
    ∧ "B2" ∈ (compileWorkflow (fun _ => "X")
        [.block (some "B1") (some .serial)
          [.playbook (some "P1") "p", .block (some "B2") none []]]).1.nodes
    ∧ ((compileWorkflow (fun _ => "X")
        [.block (some "B1") (some .serial)
          [.playbook (some "P1") "p", .block (some "B2") none []]]).1.edges.filter
        (fun p => p.1 = "B2")) = [] := by
  refine ⟨by decide, by decide, by decide, by decide, by decide, by decide⟩

/-- C5 (amended): before traversal the compiler wraps the top-level
declaration list with synthetic sentinel entries named `s` (source) and `e`
(sink) — not `_s`/`_e` — and compiles the top-level list with the `serial`
strategy; when the declared and generated ids avoid `s` and `e` and no
block has an empty child list, the compiled graph contains `s` and `e`,
`s` is its only source (no edge enters `s`, every other node has an
incoming edge) and `e` is its only sink (no edge leaves `e`, every other
node has an outgoing edge). -/
theorem c5_sentinels_unique_source_sink (gen : Nat → String) (ds : List Decl)
    (hgen : ∀ k, gen k ≠ "s" ∧ gen k ≠ "e")
    (hs : "s" ∉ declaredIdsList ds) (he : "e" ∉ declaredIdsList ds)
    (hneb : noEmptyBlockList ds = true) :
    compileWorkflow gen ds
      = importNodes gen (sentinel "s" :: (ds ++ [sentinel "e"])) [] .serial
          ⟨[], [], 0⟩
    ∧ "s" ∈ (compileWorkflow gen ds).1.nodes
    ∧ "e" ∈ (compileWorkflow gen ds).1.nodes
    ∧ (∀ u, (u, "s") ∉ (compileWorkflow gen ds).1.edges)
    ∧ (∀ x ∈ (compileWorkflow gen ds).1.nodes, x ≠ "s" →
        ∃ u, (u, x) ∈ (compileWorkflow gen ds).1.edges)
    ∧ (∀ v, ("e", v) ∉ (compileWorkflow gen ds).1.edges)
    ∧ (∀ x ∈ (compileWorkflow gen ds).1.nodes, x ≠ "e" →
        ∃ v, (x, v) ∈ (compileWorkflow gen ds).1.edges) := by
  have hshape : (compileWorkflow gen ds).1
      = ⟨(importMid gen .serial ds ⟨["s"], [], ⟨[], ["s"], 0⟩⟩).st.edges
          ++ (importMid gen .serial ds ⟨["s"], [], ⟨[], ["s"], 0⟩⟩).parents.map
              (fun q => (q, "e"))
          ++ (importMid gen .serial ds ⟨["s"], [], ⟨[], ["s"], 0⟩⟩).zero.map
              (fun z => (z, "e")),
         (importMid gen .serial ds ⟨["s"], [], ⟨[], ["s"], 0⟩⟩).st.nodes ++ ["e"],
         (importMid gen .serial ds ⟨["s"], [], ⟨[], ["s"], 0⟩⟩).st.fresh⟩ := by
    rw [compileWorkflow_split, importEntry_sentinel]
  have hM_target_s : ∀ u, (u, "s")
      ∉ (importMid gen .serial ds ⟨["s"], [], ⟨[], ["s"], 0⟩⟩).st.edges :=
    importMid_no_bad_target gen .serial ds _ "s" hs (fun k => (hgen k).1)
      (by intro u hu; cases hu)
  have hM_source_e := importMid_no_bad_source gen .serial ds
    ⟨["s"], [], ⟨[], ["s"], 0⟩⟩ "e" he (fun k => (hgen k).2)
    (by intro hc; simp at hc) (by intro hc; cases hc)
    (by intro v hv; cases hv)
  refine ⟨rfl, ?_, ?_, ?_, ?_, ?_, ?_⟩
  · rw [hshape]
    refine List.mem_append_left _ ?_
    exact importMid_extends_nodes gen .serial ds _ "s" (List.mem_singleton.mpr rfl)
  · rw [hshape]
    exact List.mem_append_right _ (List.mem_singleton.mpr rfl)
  · intro u hu
    rw [hshape] at hu
    rcases List.mem_append.mp hu with hu1 | hu1
    · rcases List.mem_append.mp hu1 with hu2 | hu2
      · exact hM_target_s u hu2
      · obtain ⟨q, _, hq2⟩ := List.mem_map.mp hu2
        have he2 : ("e" : String) = "s" := congrArg Prod.snd hq2
        exact absurd he2 (by decide)
    · obtain ⟨q, _, hq2⟩ := List.mem_map.mp hu1
      have he2 : ("e" : String) = "s" := congrArg Prod.snd hq2
      exact absurd he2 (by decide)
  · intro x hx hxs
    rw [hshape] at hx ⊢
    rcases List.mem_append.mp hx with hx1 | hx1
    · rcases importMid_indeg gen ds ⟨["s"], [], ⟨[], ["s"], 0⟩⟩ hneb
        ⟨fun _ => by simp, fun hc => by cases hc⟩ x hx1 with h | ⟨u, hu⟩
      · exact absurd (List.mem_singleton.mp h) hxs
      · exact ⟨u, List.mem_append_left _ (List.mem_append_left _ hu)⟩
    · have hxe : x = "e" := List.mem_singleton.mp hx1
      subst hxe
      have hpar : (importMid gen .serial ds ⟨["s"], [], ⟨[], ["s"], 0⟩⟩).parents
          ≠ [] :=
        importMid_serial_parents_ne gen ds _ hneb (by simp)
      obtain ⟨q, hq⟩ := List.exists_mem_of_ne_nil _ hpar
      exact ⟨q, List.mem_append_left _ (List.mem_append_right _
        (List.mem_map.mpr ⟨q, hq, rfl⟩))⟩
  · intro v hv
    rw [hshape] at hv
    rcases List.mem_append.mp hv with hv1 | hv1
    · rcases List.mem_append.mp hv1 with hv2 | hv2
      · exact hM_source_e.1 v hv2
      · obtain ⟨q, hq1, hq2⟩ := List.mem_map.mp hv2
        rw [show q = "e" from congrArg Prod.fst hq2] at hq1
        exact hM_source_e.2.1 hq1
    · obtain ⟨q, hq1, hq2⟩ := List.mem_map.mp hv1
      rw [show q = "e" from congrArg Prod.fst hq2] at hq1
      exact hM_source_e.2.2 hq1
  · intro x hx hxe
    rw [hshape] at hx ⊢
    rcases List.mem_append.mp hx with hx1 | hx1
    · rcases importMid_outdeg gen ds ⟨["s"], [], ⟨[], ["s"], 0⟩⟩ hneb x hx1 with
        h | ⟨v, hv⟩ | h | h
      · have hxs : x = "s" := List.mem_singleton.mp h
        subst hxs
        rcases importMid_parents_consumed gen ds ⟨["s"], [], ⟨[], ["s"], 0⟩⟩ "s"
            (List.mem_singleton.mpr rfl) with ⟨v, hv⟩ | hp
        · exact ⟨v, List.mem_append_left _ (List.mem_append_left _ hv)⟩
        · exact ⟨"e", List.mem_append_left _ (List.mem_append_right _
            (List.mem_map.mpr ⟨"s", hp, rfl⟩))⟩
      · exact ⟨v, List.mem_append_left _ (List.mem_append_left _ hv)⟩
      · exact ⟨"e", List.mem_append_right _ (List.mem_map.mpr ⟨x, h, rfl⟩)⟩
      · exact ⟨"e", List.mem_append_left _ (List.mem_append_right _
          (List.mem_map.mpr ⟨x, h, rfl⟩))⟩
    · exact absurd (List.mem_singleton.mp hx1) hxe

/-- Witness for C5 on the declaration `[P1]` with a constant id supply. -/
theorem c5_sentinels_unique_source_sink_witness :
    "s" ∈ (compileWorkflow (fun _ => "X") [.playbook (some "P1") "p"]).1.nodes
    ∧ "e" ∈ (compileWorkflow (fun _ => "X") [.playbook (some "P1") "p"]).1.nodes
    ∧ (∀ u, (u, "s")
        ∉ (compileWorkflow (fun _ => "X") [.playbook (some "P1") "p"]).1.edges) :=
  ⟨(c5_sentinels_unique_source_sink (fun _ => "X") [.playbook (some "P1") "p"]
      (fun _ => ⟨(by decide : ("X" : String) ≠ "s"), (by decide : ("X" : String) ≠ "e")⟩)
      (by decide) (by decide) (by decide)).2.1,
   (c5_sentinels_unique_source_sink (fun _ => "X") [.playbook (some "P1") "p"]
      (fun _ => ⟨(by decide : ("X" : String) ≠ "s"), (by decide : ("X" : String) ≠ "e")⟩)
      (by decide) (by decide) (by decide)).2.2.1,
   (c5_sentinels_unique_source_sink (fun _ => "X") [.playbook (some "P1") "p"]
      (fun _ => ⟨(by decide : ("X" : String) ≠ "s"), (by decide : ("X" : String) ≠ "e")⟩)
      (by decide) (by decide) (by decide)).2.2.2.1⟩

end AnsiblePlan
